import Mathlib

/-!
# Shallow embedding of the `recpyx` schedule engine

This file embeds, in Lean 4, the parts of the `recpyx` repository that the
verified claims are about:

* the calendar primitives and the `rrule`/`rruleset` recurrence expander
  (`src/dateutil/rrule.py`),
* the IR data model and the EN rule parser (`src/recpyx/en.py`),
* the occurrence engine `next_occurrence` and the validator `validate`
  (`src/recpyx/engine.py`).

Modelling conventions:

* A `datetime` is an absolute count of wall-clock seconds (`Int`), the date
  part being the day number since 1970-01-01. All datetimes of a run share
  the schedule's single time zone, and Python arithmetic on aware datetimes
  of one zone is wall-clock arithmetic, so the zone is carried only as a
  string and plays no role in the arithmetic.
* Python loops that are unbounded in the source (`while True:` scans in the
  expander, and the advance loops of the weekend shift) take an explicit
  `fuel : Nat`; running out of fuel produces the distinguished result
  `PyResult.hang`, which marks that the Python loop would still be running
  after that many iterations.
* Python exceptions are values: `PyErr.valueError`, `PyErr.runtimeError` and
  `PyErr.invalidRuleError` mirror `ValueError`, `RuntimeError` and
  `recpyx.engine.InvalidRuleError`.
-/

namespace Recpyx

/-- Python exception values used by the embedded code. -/
inductive PyErr where
  | valueError (msg : String)
  | runtimeError (msg : String)
  | invalidRuleError (msg : String)
  deriving DecidableEq, Repr

/-- Outcome of running a piece of embedded Python: a value, a raised
exception, or `hang` when an unbounded source loop exceeded the fuel. -/
inductive PyResult (α : Type) where
  | ok (a : α)
  | exc (e : PyErr)
  | hang
  deriving DecidableEq, Repr

namespace PyResult

def bind {α β : Type} : PyResult α → (α → PyResult β) → PyResult β
  | .ok a, f => f a
  | .exc e, _ => .exc e
  | .hang, _ => .hang

instance : Monad PyResult where
  pure := .ok
  bind := PyResult.bind

@[simp] theorem bind_ok {α β : Type} (a : α) (f : α → PyResult β) :
    bind (.ok a) f = f a := rfl

@[simp] theorem bind_exc {α β : Type} (e : PyErr) (f : α → PyResult β) :
    bind (.exc e) f = .exc e := rfl

@[simp] theorem bind_hang {α β : Type} (f : α → PyResult β) :
    bind (.hang : PyResult α) f = .hang := rfl

@[simp] theorem ok_bind {α β : Type} (a : α) (f : α → PyResult β) :
    ((.ok a : PyResult α) >>= f) = f a := rfl

@[simp] theorem exc_bind {α β : Type} (e : PyErr) (f : α → PyResult β) :
    ((.exc e : PyResult α) >>= f) = .exc e := rfl

@[simp] theorem hang_bind {α β : Type} (f : α → PyResult β) :
    ((.hang : PyResult α) >>= f) = .hang := rfl

@[simp] theorem pure_eq_ok {α : Type} (a : α) : (pure a : PyResult α) = .ok a := rfl

end PyResult

/-! ## Calendar primitives

The day number of a civil date `(y, m, d)` counts days since 1970-01-01
(day 0). `daysFromCivil`/`civilFromDays` are the standard O(1) proleptic
Gregorian conversions; Python's `datetime.date` implements the same
calendar. -/

/-- Civil (year, month, day) triple. -/
structure Civil where
  year : Int
  month : Int
  day : Int
  deriving DecidableEq, Repr

/-- Day number since 1970-01-01 of a civil date (proleptic Gregorian). -/
def daysFromCivil (y m d : Int) : Int :=
  let y' := if m ≤ 2 then y - 1 else y
  let era := y'  / 400
  let yoe := y' - era * 400
  let mp := if m ≤ 2 then m + 9 else m - 3
  let doy := (153 * mp + 2)  / 5 + d - 1
  let doe := yoe * 365 + yoe  / 4 - yoe  / 100 + doy
  era * 146097 + doe - 719468

/-- Civil date of a day number since 1970-01-01. -/
def civilFromDays (z : Int) : Civil :=
  let z' := z + 719468
  let era := z'  / 146097
  let doe := z' - era * 146097
  let yoe := (doe - doe  / 1460 + doe  / 36524 - doe  / 146096)  / 365
  let y := yoe + era * 400
  let doy := doe - (365 * yoe + yoe  / 4 - yoe  / 100)
  let mp := (5 * doy + 2)  / 153
  let d := doy - (153 * mp + 2)  / 5 + 1
  let m := if mp < 10 then mp + 3 else mp - 9
  ⟨if m ≤ 2 then y + 1 else y, m, d⟩

/-- Weekday of a day number, Monday = 0 (1970-01-01 was a Thursday). -/
def weekdayOfDay (z : Int) : Int := (z + 3) % 7

/-- The day-of-month arithmetic of `dateutil.rrule._last_day_of_month`:
the day component of the day before the first of the next month (the value
the source returns when its `date()` construction is in range; the
validation lives in `_last_day_of_month` below). -/
def monthLength (year month : Int) : Int :=
  let next := if month = 12 then daysFromCivil (year + 1) 1 1
              else daysFromCivil year (month + 1) 1
  (civilFromDays (next - 1)).day

/-- CPython's `date()`/`datetime()` error for a year outside 1..9999
(`year N is out of range`). -/
def yearRangeMsg (y : Int) : String := "year " ++ toString y ++ " is out of range"

/-- CPython's `date()`/`datetime()` error for a month outside 1..12. -/
def monthRangeMsg : String := "month must be in 1..12"

/-- CPython's `date()`/`datetime()` error for a day outside the month. -/
def dayRangeMsg : String := "day is out of range for month"

/-- CPython `date()`/`datetime()` field validation: the year 1..9999 is
checked first, then the month 1..12, then the day against the month
length. -/
def _check_date_fields (y m d : Int) : PyResult Unit :=
  if y < 1 ∨ 9999 < y then .exc (.valueError (yearRangeMsg y))
  else if m < 1 ∨ 12 < m then .exc (.valueError monthRangeMsg)
  else if d < 1 ∨ monthLength y m < d then .exc (.valueError dayRangeMsg)
  else .ok ()

/-- `dateutil.rrule._last_day_of_month`: constructs `date()` of the first
of the next month — CPython validates its year and month (the constructed
day is the literal 1, in range for every real month, so the day check
cannot fire) — then takes the day before. -/
def _last_day_of_month (year month : Int) : PyResult Int :=
  let ny := if month = 12 then year + 1 else year
  let nm := if month = 12 then (1 : Int) else month + 1
  if ny < 1 ∨ 9999 < ny then .exc (.valueError (yearRangeMsg ny))
  else if nm < 1 ∨ 12 < nm then .exc (.valueError monthRangeMsg)
  else .ok (monthLength year month)

/-- `dateutil.rrule._add_months`: month arithmetic with wrap-around. -/
def addMonths (year month months : Int) : Int × Int :=
  let total := year * 12 + (month - 1) + months
  (total  / 12, total % 12 + 1)

/-- `dateutil.rrule._week_start`: the Monday of the day's ISO week, as a day
number. -/
def weekStart (z : Int) : Int := z - weekdayOfDay z

/-- `recpyx.engine.is_weekend` on a day number. -/
def isWeekendDay (z : Int) : Bool := decide (5 ≤ weekdayOfDay z)

/-! ## Datetimes as absolute seconds -/

/-- Day number of a datetime. -/
def dtDay (dt : Int) : Int := dt  / 86400

/-- Seconds past midnight of a datetime. -/
def dtSecOfDay (dt : Int) : Int := dt % 86400

/-- Build a datetime from a civil date and an (hour, minute) wall time. -/
def mkDT (y m d h mi : Int) : Int :=
  daysFromCivil y m d * 86400 + h * 3600 + mi * 60

/-- Midnight of a day number. -/
def dayStart (z : Int) : Int := z * 86400

/-- `dt.replace(second=0, microsecond=0)`. -/
def floorMinute (dt : Int) : Int := dt - dt % 60

/-- `dt.replace(hour=h, minute=mi, second=0, microsecond=0)`. -/
def dtSetTime (dt : Int) (h mi : Int) : Int :=
  dayStart (dtDay dt) + h * 3600 + mi * 60

/-- `dt.replace(hour=h, minute=mi)` (seconds within the minute kept). -/
def dtReplaceHM (dt : Int) (h mi : Int) : Int :=
  dayStart (dtDay dt) + h * 3600 + mi * 60 + dt % 60

/-- `dt.replace(year=y, month=m, day=d)` for a valid target date: the time
of day is kept, the date is replaced. -/
def dtSetDay (dt : Int) (z : Int) : Int := dayStart z + dtSecOfDay dt

/-- Weekday of a datetime, Monday = 0 (Python's `datetime.weekday`). -/
def dtWeekday (dt : Int) : Int := weekdayOfDay (dtDay dt)

/-- Civil date of a datetime. -/
def dtCivil (dt : Int) : Civil := civilFromDays (dtDay dt)

/-! ## The recurrence expander (`dateutil.rrule`) -/

/-- Recurrence frequency constants of `dateutil.rrule`. -/
inductive Freq where
  | minutely | hourly | daily | weekly | monthly | yearly
  deriving DecidableEq, Repr

/-- State of a `dateutil.rrule.rrule` object after `__init__`. -/
structure RRule where
  freq : Freq
  interval : Nat
  dtstart : Int
  bymonth : Option (List Int)
  byweekday : Option (List Int)
  bymonthday : Option (List Int)
  bysetpos : Option (List Int)
  byhour : Option Int
  byminute : Option Int
  deriving DecidableEq, Repr

/-- Python truthiness of an optional list (`None` and `[]` are falsy). -/
def truthy : Option (List Int) → Bool
  | none => false
  | some [] => false
  | some (_ :: _) => true

/-- `list(x) if x else None` applied by `rrule.__init__` to the selector
lists. -/
def listOrNone : Option (List Int) → Option (List Int)
  | some [] => none
  | x => x

/-- `rrule.__init__`: normalizes the selectors and truncates `dtstart` to
the minute. -/
def rruleMk (freq : Freq) (interval : Nat) (dtstart : Int)
    (bymonth byweekday bymonthday bysetpos : Option (List Int))
    (byhour byminute : Option Int) : RRule :=
  ⟨freq, interval, floorMinute dtstart, listOrNone bymonth, listOrNone byweekday,
    listOrNone bymonthday, listOrNone bysetpos, byhour, byminute⟩

/-- `rrule._time_for`: set the hour/minute from `byhour`/`byminute`
(defaulting to the base's), zeroing seconds. -/
def _time_for (rr : RRule) (base : Int) : Int :=
  let h := rr.byhour.getD ((dtSecOfDay base)  / 3600)
  let mi := rr.byminute.getD (((dtSecOfDay base) % 3600)  / 60)
  dtSetTime base h mi

/-- Insertion into a sorted list of ints. -/
def insertSorted (x : Int) : List Int → List Int
  | [] => [x]
  | y :: ys => if x ≤ y then x :: y :: ys else y :: insertSorted x ys

/-- Python `sorted` on a list of ints. -/
def sortInts (l : List Int) : List Int := l.foldr insertSorted []

/-- Drop adjacent duplicates of a sorted list. -/
def dedupSorted : List Int → List Int
  | [] => []
  | [x] => [x]
  | x :: y :: r => if x = y then dedupSorted (y :: r) else x :: dedupSorted (y :: r)

/-- Python `sorted(set(l))` on a list of ints. -/
def sortedSet (l : List Int) : List Int := dedupSorted (sortInts l)

/-- Python negative-index-aware `l[idx]` (`none` = `IndexError`). -/
def pyGet {α : Type} (l : List α) (idx : Int) : Option α :=
  if 0 ≤ idx then l.get? idx.toNat
  else
    let j := (l.length : Int) + idx
    if 0 ≤ j then l.get? j.toNat else none

/-- The advancing `while` loop shared by `_after_minutely`, `_after_hourly`
and the first loop of `_after_daily`:
`while candidate < target or (not inclusive and candidate == target):
candidate += step`. -/
def advancePast (fuel : Nat) (stepSec target : Int) (inc : Bool) (cand : Int) : PyResult Int :=
  match fuel with
  | 0 => .hang
  | f + 1 =>
    if cand < target ∨ (inc = false ∧ cand = target) then
      advancePast f stepSec target inc (cand + stepSec)
    else .ok cand

/-- Second loop of `_after_daily`: advance until the weekday matches
`byweekday` (no filter when `byweekday` is `None`). -/
def dailyWeekdayFilter (fuel : Nat) (stepSec : Int) (bywd : Option (List Int)) (cand : Int) :
    PyResult Int :=
  match fuel with
  | 0 => .hang
  | f + 1 =>
    if (match bywd with
        | none => true
        | some l => decide (dtWeekday cand ∈ l)) then .ok cand
    else dailyWeekdayFilter f stepSec bywd (cand + stepSec)

/-- `rrule._after_minutely`. -/
def _after_minutely (fuel : Nat) (rr : RRule) (target : Int) (inc : Bool) : PyResult Int :=
  advancePast fuel ((rr.interval : Int) * 60) target inc rr.dtstart

/-- `rrule._after_hourly`. -/
def _after_hourly (fuel : Nat) (rr : RRule) (target : Int) (inc : Bool) : PyResult Int :=
  advancePast fuel ((rr.interval : Int) * 3600) target inc rr.dtstart

/-- `rrule._after_daily`. -/
def _after_daily (fuel : Nat) (rr : RRule) (target : Int) (inc : Bool) : PyResult Int := do
  let c ← advancePast fuel ((rr.interval : Int) * 86400) target inc rr.dtstart
  dailyWeekdayFilter fuel ((rr.interval : Int) * 86400) rr.byweekday c

/-- `rrule._weekly_candidates_for_week` (the week start is a day number). -/
def _weekly_candidates_for_week (rr : RRule) (ws : Int) : List Int :=
  let weekdays := if truthy rr.byweekday then rr.byweekday.getD [] else [dtWeekday rr.dtstart]
  let cands := (sortedSet weekdays).map (fun wd => _time_for rr (dayStart (ws + wd)))
  sortInts cands

/-- `if candidate > target or (inclusive and candidate == target): return
candidate`, scanning a candidate list in order. -/
def firstAfter (target : Int) (inc : Bool) : List Int → Option Int
  | [] => none
  | c :: rest =>
    if target < c ∨ (inc = true ∧ c = target) then some c else firstAfter target inc rest

/-- `rrule._after_weekly`'s unbounded week scan. -/
def afterWeeklyLoop (fuel : Nat) (rr : RRule) (target : Int) (inc : Bool) (weeks : Nat) :
    PyResult Int :=
  match fuel with
  | 0 => .hang
  | f + 1 =>
    let ws := weekStart (dtDay rr.dtstart) + 7 * (rr.interval : Int) * (weeks : Int)
    match firstAfter target inc (_weekly_candidates_for_week rr ws) with
    | some c => .ok c
    | none => afterWeeklyLoop f rr target inc (weeks + 1)

/-- `rrule._after_weekly`. -/
def _after_weekly (fuel : Nat) (rr : RRule) (target : Int) (inc : Bool) : PyResult Int :=
  afterWeeklyLoop fuel rr target inc 0

/-- `rrule._month_candidates`. Each `date()`/`datetime()` construction of
the source validates its fields (year first, then month, then day): the
`bysetpos` branch builds `date(year, month, day)` from day 1 on, the
`bymonthday` branch builds one date per qualifying entry, and the plain
branch builds `datetime(year, month, dtstart.day)`. -/
def _month_candidates (rr : RRule) (year month : Int) : PyResult (List Int) :=
  if truthy rr.bymonth ∧ month ∉ rr.bymonth.getD [] then .ok []
  else if truthy rr.bysetpos ∧ truthy rr.byweekday then do
    let lastDay ← _last_day_of_month year month
    _check_date_fields year month 1
    let wds := rr.byweekday.getD []
    let matchDays := (List.range lastDay.toNat).filterMap (fun i =>
      let d := daysFromCivil year month ((i : Int) + 1)
      if weekdayOfDay d ∈ wds then some d else none)
    let cands := (rr.bysetpos.getD []).foldl (fun acc pos =>
      if pos = 0 then acc
      else
        let idx := if 0 < pos then pos - 1 else pos
        match pyGet matchDays idx with
        | some chosen => acc ++ [_time_for rr (dayStart chosen)]
        | none => acc) []
    pure (sortedSet cands)
  else if truthy rr.bymonthday then do
    let lastDay ← _last_day_of_month year month
    let cands ← (rr.bymonthday.getD []).foldlM (fun acc day =>
      if day = -1 then do
        _check_date_fields year month lastDay
        pure (acc ++ [_time_for rr (dayStart (daysFromCivil year month lastDay))])
      else if 1 ≤ day ∧ day ≤ lastDay then do
        _check_date_fields year month day
        pure (acc ++ [_time_for rr (dayStart (daysFromCivil year month day))])
      else pure acc) []
    pure (sortedSet cands)
  else do
    let day := (dtCivil rr.dtstart).day
    _check_date_fields year month day
    pure (sortedSet [_time_for rr (dayStart (daysFromCivil year month day))])

/-- `rrule._after_monthly`'s unbounded month scan. -/
def afterMonthlyLoop (fuel : Nat) (rr : RRule) (target : Int) (inc : Bool) (months : Nat) :
    PyResult Int :=
  match fuel with
  | 0 => .hang
  | f + 1 => do
    let c := dtCivil rr.dtstart
    let ym := addMonths c.year c.month ((rr.interval : Int) * (months : Int))
    let cands ← _month_candidates rr ym.1 ym.2
    match firstAfter target inc cands with
    | some c => .ok c
    | none => afterMonthlyLoop f rr target inc (months + 1)

/-- `rrule._after_monthly`. -/
def _after_monthly (fuel : Nat) (rr : RRule) (target : Int) (inc : Bool) : PyResult Int :=
  afterMonthlyLoop fuel rr target inc 0

/-- Helper collecting `_month_candidates` over a month list (the loop body
of `_year_candidates`). -/
def collectMonthCandidates (rr : RRule) (year : Int) : List Int → PyResult (List Int)
  | [] => .ok []
  | m :: rest => do
    let c ← _month_candidates rr year m
    let cs ← collectMonthCandidates rr year rest
    .ok (c ++ cs)

/-- `rrule._year_candidates`. -/
def _year_candidates (rr : RRule) (year : Int) : PyResult (List Int) := do
  let months := if truthy rr.bymonth then rr.bymonth.getD [] else [(dtCivil rr.dtstart).month]
  let cands ← collectMonthCandidates rr year months
  .ok (sortInts cands)

/-- `rrule._after_yearly`'s unbounded year scan. -/
def afterYearlyLoop (fuel : Nat) (rr : RRule) (target : Int) (inc : Bool) (years : Nat) :
    PyResult Int :=
  match fuel with
  | 0 => .hang
  | f + 1 => do
    let year := (dtCivil rr.dtstart).year + (rr.interval : Int) * (years : Int)
    let cands ← _year_candidates rr year
    match firstAfter target inc cands with
    | some c => .ok c
    | none => afterYearlyLoop f rr target inc (years + 1)

/-- `rrule._after_yearly`. -/
def _after_yearly (fuel : Nat) (rr : RRule) (target : Int) (inc : Bool) : PyResult Int :=
  afterYearlyLoop fuel rr target inc 0

/-- `rrule.after`: frequency dispatch. -/
def rruleAfter (fuel : Nat) (rr : RRule) (target : Int) (inc : Bool) : PyResult Int :=
  match rr.freq with
  | .minutely => _after_minutely fuel rr target inc
  | .hourly => _after_hourly fuel rr target inc
  | .daily => _after_daily fuel rr target inc
  | .weekly => _after_weekly fuel rr target inc
  | .monthly => _after_monthly fuel rr target inc
  | .yearly => _after_yearly fuel rr target inc

/-- The list comprehension of `rruleset.after`. -/
def rsAfterList (fuel : Nat) (rules : List RRule) (dt : Int) (inc : Bool) :
    PyResult (List Int) :=
  match rules with
  | [] => .ok []
  | r :: rest => do
    let c ← rruleAfter fuel r dt inc
    let cs ← rsAfterList fuel rest dt inc
    .ok (c :: cs)

/-- `rruleset.after`: minimum of the per-rule next candidates (`none` only
when the set holds no rules, or a per-rule scan ran out of fuel). -/
def rsAfter (fuel : Nat) (rules : List RRule) (dt : Int) (inc : Bool) :
    PyResult (Option Int) := do
  let cs ← rsAfterList fuel rules dt inc
  match cs with
  | [] => .ok none
  | c :: rest => .ok (some (rest.foldl min c))

/-! ## The IR data model (`recpyx.en`) -/

/-- A wall-clock time of day, `datetime.time(hour, minute)`. -/
structure Tm where
  hour : Nat
  minute : Nat
  deriving DecidableEq, Repr

/-- Seconds past midnight of a time of day. -/
def Tm.toSec (t : Tm) : Int := (t.hour : Int) * 3600 + (t.minute : Int) * 60

/-- `IRRule.weekend_shift`: `"none" | "next_monday" | "next_business_day"`. -/
inductive Shift where
  | none | nextMonday | nextBusinessDay
  deriving DecidableEq, Repr

/-- `IRRule.type`: `"rrule" | "oneshot"`. -/
inductive RuleType where
  | oneshot | rrule
  deriving DecidableEq, Repr

/-- `recpyx.en.IRHolidaySpec`. -/
structure IRHolidaySpec where
  enabled : Bool
  country : Option String
  deriving DecidableEq, Repr

/-- `recpyx.en.IRExcept` (dates are day numbers). -/
structure IRExcept where
  weekdays : List Int
  dates : List Int
  holidays : IRHolidaySpec
  deriving DecidableEq, Repr

/-- The empty exception set (the dataclass defaults). -/
def IRExcept.empty : IRExcept := ⟨[], [], ⟨false, none⟩⟩

/-- `recpyx.en.IRWindowDate` (`stop` is the source's `end` field; the fields
hold day numbers). -/
structure IRWindowDate where
  start : Option Int
  stop : Option Int
  until_ : Option Int
  deriving DecidableEq, Repr

/-- `recpyx.en.IRBetweenTime` (`stop` is the source's `end` field). -/
structure IRBetweenTime where
  start : Tm
  stop : Tm
  deriving DecidableEq, Repr

/-- `recpyx.en.IRStep`. -/
structure IRStep where
  minutes : Option Nat
  hours : Option Nat
  deriving DecidableEq, Repr

/-- `recpyx.en.IRRule`. `at` is the one-shot's naive local datetime in
absolute seconds. -/
structure IRRule where
  type : RuleType
  at_ : Option Int := Option.none
  freq : Option Freq := Option.none
  interval : Nat := 1
  bymonth : Option (List Int) := Option.none
  byweekday : Option (List Int) := Option.none
  bymonthday : Option (List Int) := Option.none
  bysetpos : Option (List Int) := Option.none
  times : List Tm := []
  between_time : Option IRBetweenTime := Option.none
  step : Option IRStep := Option.none
  window_date : Option IRWindowDate := Option.none
  except_ : IRExcept := IRExcept.empty
  weekend_shift : Shift := Shift.none
  deriving DecidableEq, Repr

/-- `recpyx.en.IRSchedule`. -/
structure IRSchedule where
  tz : String := "Europe/Paris"
  rules : List IRRule
  deriving DecidableEq, Repr

/-! ## The occurrence engine (`recpyx.engine`) -/

/-- `recpyx.engine.is_weekend`. -/
def is_weekend (z : Int) : Bool := decide (5 ≤ weekdayOfDay z)

/-- `while p d: d += 1`, with enough fuel for the weekday loops (every run
of 7 consecutive days holds every weekday). -/
def advanceWhile (p : Int → Bool) : Nat → Int → Int
  | 0, d => d
  | f + 1, d => if p d then advanceWhile p f (d + 1) else d

/-- `recpyx.engine.next_business_day` (on day numbers). -/
def next_business_day (z : Int) : Int := advanceWhile (fun d => 5 ≤ weekdayOfDay d) 7 z

/-- The `while d.weekday() != 0: d += 1` loop of `_apply_weekend_shift`. -/
def nextMondayDay (z : Int) : Int := advanceWhile (fun d => weekdayOfDay d ≠ 0) 7 z

/-- `recpyx.engine._apply_weekend_shift`. -/
def _apply_weekend_shift (dt : Int) (mode : Shift) : Int :=
  match mode with
  | .none => dt
  | .nextMonday =>
    if is_weekend (dtDay dt) then dtSetDay dt (nextMondayDay (dtDay dt)) else dt
  | .nextBusinessDay =>
    if is_weekend (dtDay dt) then dtSetDay dt (next_business_day (dtDay dt)) else dt

/-- `recpyx.engine._window_datetimes`: midnight of the start day, 23:59 of
the end day, `until` coalesced into the end via `min`. -/
def _window_datetimes (w : Option IRWindowDate) : Option Int × Option Int :=
  match w with
  | none => (none, none)
  | some w =>
    let startDt := w.start.map dayStart
    let endOf : Int → Int := fun d => dayStart d + 23 * 3600 + 59 * 60
    let endDt := w.stop.map endOf
    let endDt :=
      match w.until_ with
      | none => endDt
      | some u =>
        match endDt with
        | none => some (endOf u)
        | some e => some (min e (endOf u))
    (startDt, endDt)

/-- Message of the `RuntimeError` raised by `_excluded` when public-holiday
exclusion is requested without a provider. -/
def holidayMsg : String := "Public holidays exclusion not implemented (plug holidays here)."

/-- The hourly-with-window filter of `_excluded`: a time of day outside
`[between_time.start, between_time.end]` is excluded, only for
`freq = hourly` with a `between_time` and no `step`. -/
def hourlyFilterExcluded (dt : Int) (rule : IRRule) : Bool :=
  match rule.type, rule.freq, rule.between_time, rule.step with
  | .rrule, some .hourly, some bt, none =>
    decide (¬ (bt.start.toSec ≤ dtSecOfDay dt ∧ dtSecOfDay dt ≤ bt.stop.toSec))
  | _, _, _, _ => false

/-- `recpyx.engine._excluded`. -/
def _excluded (dt : Int) (rule : IRRule) : PyResult Bool :=
  if hourlyFilterExcluded dt rule then .ok true
  else if dtWeekday dt ∈ rule.except_.weekdays then .ok true
  else if dtDay dt ∈ rule.except_.dates then .ok true
  else if rule.except_.holidays.enabled then .exc (.runtimeError holidayMsg)
  else .ok false

/-- `recpyx.engine._build_rruleset`. -/
def _build_rruleset (rule : IRRule) (now : Int) (w_start : Option Int) :
    PyResult (List RRule) := do
  let dtstart0 := floorMinute (w_start.getD now)
  let dtstart :=
    if (rule.freq = some .monthly ∨ rule.freq = some .yearly) ∧
        truthy rule.bysetpos ∧ truthy rule.byweekday then
      if rule.freq = some .monthly then
        -- dtstart.replace(day=1, hour=0, minute=0)
        dayStart (daysFromCivil (dtCivil dtstart0).year (dtCivil dtstart0).month 1)
      else
        -- dtstart.replace(month=1, day=1, hour=0, minute=0)
        dayStart (daysFromCivil (dtCivil dtstart0).year 1 1)
    else dtstart0
  let freqConst ← match rule.freq with
    | some f => pure f
    | none => PyResult.exc (.valueError "KeyError: None")  -- FREQ_MAP[None]
  let addRR : Int → Option Int → Option Int → RRule := fun dt0 hour minute =>
    rruleMk freqConst rule.interval dt0 rule.bymonth rule.byweekday
      rule.bymonthday rule.bysetpos hour minute
  if rule.step.isSome ∧ rule.between_time.isSome ∧ rule.freq = some .daily then
    pure [addRR dtstart none none]
  else if rule.times ≠ [] then
    pure (rule.times.map fun t =>
      addRR (dtReplaceHM dtstart (t.hour : Int) (t.minute : Int))
        (some (t.hour : Int)) (some (t.minute : Int)))
  else
    pure [addRR dtstart none none]

/-- `recpyx.engine._step_to_timedelta` (in seconds). -/
def _step_to_timedelta (step : IRStep) : PyResult Int :=
  match step.hours with
  | some h => .ok ((h : Int) * 3600)
  | none =>
    match step.minutes with
    | some m => .ok ((m : Int) * 60)
    | none => .exc (.valueError "Invalid step: missing hours/minutes")

/-- The `while cur <= end_dt` slot loop of `_expand_step_within_day`. -/
def expandLoop (fuel : Nat) (stepSec endDt after : Int) (cur : Int) : PyResult (Option Int) :=
  match fuel with
  | 0 => .hang
  | f + 1 =>
    if cur ≤ endDt then
      if after < cur then .ok (some cur)
      else expandLoop f stepSec endDt after (cur + stepSec)
    else .ok none

/-- `recpyx.engine._expand_step_within_day`: on `base_dt`'s day, slots run
from `between_time.start` by `step` up to `between_time.end`; the first slot
strictly after `after_dt` is returned. -/
def _expand_step_within_day (fuel : Nat) (base_dt : Int) (st : IRStep) (bt : IRBetweenTime)
    (after_dt : Int) : PyResult (Option Int) := do
  let stepSec ← _step_to_timedelta st
  let d := dtDay base_dt
  expandLoop fuel stepSec (dayStart d + bt.stop.toSec) after_dt (dayStart d + bt.start.toSec)

/-- The same-day re-probe of the step-within-day path: when the ruleset's
candidate jumped to a later calendar day, ask again from just before
`probe`'s midnight and keep a same-day base when one exists. -/
def stepBase (fuel : Nat) (rs : List RRule) (probe base : Int) : PyResult Int :=
  if dtDay base ≠ dtDay probe then do
    let dayProbe := dayStart (dtDay probe) - 1
    let baseToday ← rsAfter fuel rs dayProbe false
    match baseToday with
    | some b2 => pure (if dtDay b2 = dtDay probe then b2 else base)
    | none => pure base
  else pure base

/-- The tail of the probe-loop body shared by the step and non-step paths:
weekend shift, window checks, exclusion check; `retry` is the next loop
iteration on a new probe. -/
def probeAccept (r : IRRule) (w_start w_end : Option Int)
    (retry : Int → PyResult (Option Int)) (dt0 : Int) : PyResult (Option Int) :=
  let dt := _apply_weekend_shift dt0 r.weekend_shift
  if (match w_start with | some ws => decide (dt < ws) | none => false) then
    retry (w_start.getD 0 - 1)
  else if (match w_end with | some we => decide (we < dt) | none => false) then
    .ok none
  else do
    let excl ← _excluded dt r
    if excl then retry (dt + 1)
    else .ok (some dt)

/-- The bounded probe loop of `next_occurrence` (`for _ in range(500)`),
counted down by its first `Nat` argument. The result is the per-rule
accepted candidate, `none` when the rule contributes nothing. -/
def probeLoop (fuel : Nat) (rs : List RRule) (r : IRRule) (w_start w_end : Option Int) :
    Nat → Int → PyResult (Option Int)
  | 0, _ => .ok none
  | n + 1, probe => do
    let baseOpt ← rsAfter fuel rs probe false
    match baseOpt with
    | none => .ok none
    | some base =>
      match r.step, r.between_time with
      | some st, some bt => do
        let dt ← stepBase fuel rs probe base
        let dt2 ← _expand_step_within_day fuel dt st bt probe
        match dt2 with
        | none =>
          probeLoop fuel rs r w_start w_end n (dayStart (dtDay dt + 1))
        | some d2 =>
          probeAccept r w_start w_end (fun p => probeLoop fuel rs r w_start w_end n p) d2
      | _, _ =>
        probeAccept r w_start w_end (fun p => probeLoop fuel rs r w_start w_end n p) base

/-- The per-rule body of `next_occurrence`: the candidate rule `r`
contributes for reference instant `now`, or `none`. -/
def ruleCandidate (fuel : Nat) (r : IRRule) (now : Int) : PyResult (Option Int) :=
  let ws := _window_datetimes r.window_date
  match r.type with
  | .oneshot =>
    match r.at_ with
    | none => .exc (.valueError "AssertionError: dt is not None")
    | some dt =>
      if now < dt then do
        let excl ← _excluded dt r
        if excl then pure none else pure (some dt)
      else .ok none
  | .rrule => do
    let rs ← _build_rruleset r now ws.1
    probeLoop fuel rs r ws.1 ws.2 500 now

/-- The candidate-gathering loop of `next_occurrence` over the schedule's
rules, in order. -/
def collectCandidates (fuel : Nat) (now : Int) : List IRRule → PyResult (List Int)
  | [] => .ok []
  | r :: rest => do
    let c ← ruleCandidate fuel r now
    let cs ← collectCandidates fuel now rest
    pure (match c with | some d => d :: cs | none => cs)

/-- Message of the `RuntimeError` raised when no rule contributed. -/
def noOccMsg : String := "No next occurrence found (rules ended or filtered out)."

/-- `recpyx.engine.next_occurrence` from the parsed schedule on: gather the
per-rule candidates, fail when none, else return the minimum. -/
def next_occurrence_sched (fuel : Nat) (sched : IRSchedule) (now : Int) : PyResult Int := do
  let cs ← collectCandidates fuel now sched.rules
  match cs with
  | [] => .exc (.runtimeError noOccMsg)
  | c :: rest => .ok (rest.foldl min c)

/-! ## The EN parser (`recpyx.en`)

`parse_rule` first normalizes the text to single-space-separated lowercase
words; all its regexes then match word patterns of that normalized string,
so the embedding works on the word list. Python's `.lower()` is modelled
for the ASCII letters (the grammar's keywords are all ASCII). A `none`
result models a raised `ValueError`. -/

/-- Value of a digit character. -/
def digitVal (c : Char) : Nat := c.toNat - 48

/-- Numeric value of a digit string. -/
def natOfDigits (cs : List Char) : Nat := cs.foldl (fun acc c => acc * 10 + digitVal c) 0

/-- A non-empty all-digits word (`\d+` as a full word). -/
def isDigitsWord (w : String) : Bool := w.toList ≠ [] ∧ w.toList.all Char.isDigit

/-- A word of the exact shape `\d{4}-\d{2}-\d{2}`. -/
def isDateWord (w : String) : Bool :=
  match w.toList with
  | [a, b, c, d, '-', e, f, '-', g, h] =>
    a.isDigit ∧ b.isDigit ∧ c.isDigit ∧ d.isDigit ∧ e.isDigit ∧ f.isDigit ∧ g.isDigit ∧ h.isDigit
  | _ => false

/-- The digits `(MM, DD)` of a word of the exact shape `\d{2}-\d{2}`. -/
def mdParts (w : String) : Option (Int × Int) :=
  match w.toList with
  | [a, b, '-', c, d] =>
    if a.isDigit ∧ b.isDigit ∧ c.isDigit ∧ d.isDigit then
      some ((natOfDigits [a, b] : Int), (natOfDigits [c, d] : Int))
    else none
  | _ => none

/-- Split a character list into maximal runs not satisfying `p`, dropping
empty pieces (Python's `str.split()` behaviour for whitespace). -/
def splitRuns (p : Char → Bool) (cur : List Char) : List Char → List String
  | [] => if cur = [] then [] else [String.mk cur.reverse]
  | c :: rest =>
    if p c then (if cur = [] then [] else [String.mk cur.reverse]) ++ splitRuns p [] rest
    else splitRuns p (c :: cur) rest

/-- The normalized word list: `" ".join(text.strip().split()).lower()`
viewed word by word (ASCII lowering). -/
def normWords (s : String) : List String :=
  (splitRuns Char.isWhitespace [] s.data).map (fun w => String.mk (w.data.map Char.toLower))

/-- The same word split with the original case kept (`parse_schedule` works
on the raw text). -/
def normWordsRaw (s : String) : List String :=
  splitRuns Char.isWhitespace [] s.data

/-- Single-space joining, the inverse of the word split on normalized
text. -/
def joinWords : List String → String
  | [] => ""
  | [w] => w
  | w :: rest => w ++ " " ++ joinWords rest

/-- `endsWith` on the character lists. -/
def strEndsWith (w pat : String) : Bool :=
  decide (w.data.drop (w.data.length - pat.data.length) = pat.data)

/-- Drop the last `n` characters. -/
def strDropRight (w : String) (n : Nat) : String :=
  String.mk (w.data.take (w.data.length - n))

/-- `recpyx.en.parse_time` on the characters of its argument: the regex
`^\s*(\d{1,2})(?::(\d{2}))?\s*(am|pm)?\s*$` followed by the range and am/pm
adjustments. -/
def parse_time (s : String) : Option Tm :=
  let cs := s.toList.dropWhile Char.isWhitespace
  let digits := cs.takeWhile Char.isDigit
  let rest := cs.dropWhile Char.isDigit
  if digits.length = 0 ∨ 2 < digits.length then none
  else
    let h := natOfDigits digits
    let (mi?, rest2) :=
      match rest with
      | ':' :: d1 :: d2 :: r =>
        if d1.isDigit ∧ d2.isDigit then (some (natOfDigits [d1, d2]), r) else (none, rest)
      | _ => (none, rest)
    let rest3 := rest2.dropWhile Char.isWhitespace
    let (ampm, rest4) :=
      match rest3 with
      | 'a' :: 'm' :: r => (some false, r)
      | 'p' :: 'm' :: r => (some true, r)
      | _ => (none, rest3)
    if rest4.dropWhile Char.isWhitespace ≠ [] then none
    else
      let mi := mi?.getD 0
      if 59 < mi then none
      else
        match ampm with
        | some isPm =>
          if 1 ≤ h ∧ h ≤ 12 then
            let h := if h = 12 then 0 else h
            some ⟨if isPm then h + 12 else h, mi⟩
          else none
        | none => if h ≤ 23 then some ⟨h, mi⟩ else none

/-- `recpyx.en.parse_date`: a `\d{4}-\d{2}-\d{2}` word whose parts form a
real calendar date (as `datetime.date` validates), returned as a day
number. -/
def parse_date (w : String) : Option Int :=
  match w.toList with
  | [a, b, c, d, '-', e, f, '-', g, h] =>
    if a.isDigit ∧ b.isDigit ∧ c.isDigit ∧ d.isDigit ∧ e.isDigit ∧ f.isDigit ∧
        g.isDigit ∧ h.isDigit then
      let y : Int := natOfDigits [a, b, c, d]
      let m : Int := natOfDigits [e, f]
      let dd : Int := natOfDigits [g, h]
      if 1 ≤ y ∧ 1 ≤ m ∧ m ≤ 12 ∧ 1 ≤ dd ∧ dd ≤ monthLength y m then
        some (daysFromCivil y m dd)
      else none
    else none
  | _ => none

/-- `WEEKDAY_MAP`. -/
def weekdayIdx : String → Option Int
  | "monday" => some 0
  | "tuesday" => some 1
  | "wednesday" => some 2
  | "thursday" => some 3
  | "friday" => some 4
  | "saturday" => some 5
  | "sunday" => some 6
  | _ => none

/-- The EN month names, 1-based. -/
def monthIdx : String → Option Int
  | "january" => some 1
  | "february" => some 2
  | "march" => some 3
  | "april" => some 4
  | "may" => some 5
  | "june" => some 6
  | "july" => some 7
  | "august" => some 8
  | "september" => some 9
  | "october" => some 10
  | "november" => some 11
  | "december" => some 12
  | _ => none

/-- The word forms of `ORDINAL` accepted by the nth-weekday regexes. -/
def ordinalIdx : String → Option Int
  | "first" => some 1
  | "second" => some 2
  | "third" => some 3
  | "fourth" => some 4
  | "fifth" => some 5
  | "last" => some (-1)
  | _ => none

/-- `w.replace(",", " ").split()` on one word: split at commas, dropping
empty pieces. -/
def splitCommas (w : String) : List String := splitRuns (· = ',') [] w.data

/-- `recpyx.en.parse_weekday_list` on the words of its argument. -/
def parse_weekday_list (ws : List String) : List String :=
  let words := (ws.flatMap splitCommas).filter (· ≠ "and")
  words.filter (fun w => (weekdayIdx w).isSome)

/-- `recpyx.en.IRExcept` update of `apply_except` (a `none` result is a
`ValueError` from `parse_date`). -/
def applyExcept (exWords : List String) (ex : IRExcept) : Option IRExcept :=
  if exWords = ["on", "public", "holidays"] ∨ exWords = ["public", "holidays"] then
    some { ex with holidays := { ex.holidays with enabled := true } }
  else
    let ex1 := (parse_weekday_list exWords).foldl (fun e w =>
      match weekdayIdx w with
      | some i => if i ∈ e.weekdays then e else { e with weekdays := e.weekdays ++ [i] }
      | none => e) ex
    (exWords.flatMap splitCommas).foldlM (fun e t =>
      if isDateWord t then
        match parse_date t with
        | some d => some (if d ∈ e.dates then e else { e with dates := e.dates ++ [d] })
        | none => none
      else some e) ex1

/-- Drop a given non-empty word suffix, requiring at least one word before
it (the stripping regexes all start with `\s+`). -/
def dropSuffixNE (ws pat : List String) : Option (List String) :=
  if pat.length < ws.length ∧ ws.drop (ws.length - pat.length) = pat then
    some (ws.take (ws.length - pat.length))
  else none

/-- `... between D1 and D2$` as a word suffix with date-shaped `D1`, `D2`. -/
def stripBetween (ws : List String) : Option (List String × String × String) :=
  match ws.reverse with
  | d2 :: "and" :: d1 :: "between" :: r :: rest =>
    if isDateWord d1 ∧ isDateWord d2 then some ((r :: rest).reverse, d1, d2) else none
  | _ => none

/-- `... until D$` as a word suffix with a date-shaped `D`. -/
def stripUntil (ws : List String) : Option (List String × String) :=
  match ws.reverse with
  | d :: "until" :: r :: rest =>
    if isDateWord d then some ((r :: rest).reverse, d) else none
  | _ => none

/-- Leftmost ` except <tail>` with a non-empty tail (the word before the
first `except` stays; the tail runs to the end of the text). -/
def findExceptGo (accRev : List String) : List String → Option (List String × List String)
  | [] => none
  | w :: rest =>
    if w = "except" ∧ rest ≠ [] then some (accRev.reverse, rest)
    else findExceptGo (w :: accRev) rest

/-- `re.search(r"\s+except\s+(.+)$", s)` at the word level. -/
def findExceptSuffix : List String → Option (List String × List String)
  | [] => none
  | w :: rest => findExceptGo [w] rest

/-- `re.search(r"\s+at\s+", ex_text)`: the word `at` occurs at an interior
position of the word list. -/
def hasInteriorAt : List String → Bool
  | [] => false
  | _ :: rest => go rest
where
  go : List String → Bool
    | [] => false
    | [_] => false
    | w :: r :: rest => w = "at" || go (r :: rest)

/-- Lazy split at the first occurrence of a keyword with at least one word
on each side (`(.+?)\s+kw\s+(.+)`). -/
def splitFirstKW (kw : String) (accRev : List String) : List String → Option (List String × List String)
  | [] => none
  | w :: rest =>
    if w = kw ∧ accRev ≠ [] ∧ rest ≠ [] then some (accRev.reverse, rest)
    else splitFirstKW kw (w :: accRev) rest

/-- The suffix-stripping state of `parse_rule`. -/
structure StripState where
  words : List String
  shift : Shift
  window : IRWindowDate
  ex : IRExcept
  deriving Repr

/-- The weekend-shift clause of the loop body
(`re.search(r"\s+if\s+weekend\s+then\s+next\s+(monday|business day)\s*$")`). -/
def stripWeekendStage (ws : List String) (shift : Shift) : List String × Shift × Bool :=
  match dropSuffixNE ws ["if", "weekend", "then", "next", "monday"] with
  | some pre => (pre, Shift.nextMonday, true)
  | none =>
    match dropSuffixNE ws ["if", "weekend", "then", "next", "business", "day"] with
    | some pre => (pre, Shift.nextBusinessDay, true)
    | none => (ws, shift, false)

/-- The `between D1 and D2` clause of the loop body. -/
def stripBetweenStage (ws : List String) (window : IRWindowDate) :
    Option (List String × IRWindowDate × Bool) :=
  match stripBetween ws with
  | some (pre, d1, d2) => do
    let s ← parse_date d1
    let e ← parse_date d2
    pure (pre, { window with start := some s, stop := some e }, true)
  | none => pure (ws, window, false)

/-- The `until D` clause of the loop body. -/
def stripUntilStage (ws : List String) (window : IRWindowDate) :
    Option (List String × IRWindowDate × Bool) :=
  match stripUntil ws with
  | some (pre, d) => do
    let u ← parse_date d
    pure (pre, { window with until_ := some u }, true)
  | none => pure (ws, window, false)

/-- The trailing-`except` clause of the loop body (left alone when its tail
holds an interior `at`). -/
def stripExceptStage (ws : List String) (ex : IRExcept) :
    Option (List String × IRExcept × Bool) :=
  match findExceptSuffix ws with
  | some (pre, exws) =>
    if hasInteriorAt exws then pure (ws, ex, false)
    else do
      let ex2 ← applyExcept exws ex
      pure (pre, ex2, true)
  | none => pure (ws, ex, false)

/-- One iteration of the `while True` suffix-stripping loop: the weekend
clause, then the date window, then `until`, then a trailing `except`. -/
def stripPass (st : StripState) : Option (StripState × Bool) := do
  let (ws, shift, ch1) := stripWeekendStage st.words st.shift
  let (ws, window, ch2) ← stripBetweenStage ws st.window
  let (ws, window, ch3) ← stripUntilStage ws window
  let (ws, ex, ch4) ← stripExceptStage ws st.ex
  pure (⟨ws, shift, window, ex⟩, ch1 || ch2 || ch3 || ch4)

/-- The suffix-stripping loop run to stability (every productive pass
shortens the word list, so `length + 1` iterations always reach it). -/
def stripLoop : Nat → StripState → Option StripState
  | 0, st => some st
  | f + 1, st => do
    let (st', changed) ← stripPass st
    if changed then stripLoop f st' else some st'

/-- `re.search(r"\s+except\s+(.+?)\s+at\s+", s)`: leftmost `except` (not at
the start) whose tail holds a later `at` with at least one word between and
one word after; yields (prefix, exception words, words after the `at`). -/
def findMidExceptGo (accRev : List String) :
    List String → Option (List String × List String × List String)
  | [] => none
  | w :: rest =>
    if w = "except" ∧ accRev ≠ [] then
      match splitFirstKW "at" [] rest with
      | some (grp, suf) => some (accRev.reverse, grp, suf)
      | none => findMidExceptGo (w :: accRev) rest
    else findMidExceptGo (w :: accRev) rest

/-- `parse_time` applied to each chunk of a time list
(`at_part.replace(",", " ")`, split, `and` dropped). -/
def parseTimeList (atWords : List String) : Option (List Tm) :=
  (((atWords.flatMap splitCommas).filter (· ≠ "and")).mapM parse_time)

/-- `re.findall(r"(\d{1,2})(?:st|nd|rd|th)?", on_part)`: all digit runs,
chunked two digits at a time. -/
def findNums : List Char → List Nat
  | [] => []
  | [c] => if c.isDigit then [digitVal c] else []
  | c :: c2 :: rest =>
    if c.isDigit then
      if c2.isDigit then natOfDigits [c, c2] :: findNums rest
      else digitVal c :: findNums (c2 :: rest)
    else findNums (c2 :: rest)

/-! ### The shape branches of `parse_rule`

Each `tryX` mirrors one `re.fullmatch` branch. The outer `Option` is the
regex match (a `none` falls through to the next branch); the inner
`Option IRRule` is the committed result, where `none` models a `ValueError`
raised while building it (no later branch is tried then). -/

/-- `(\d{4}-\d{2}-\d{2}) at (.+)` — one-shot; its window is the single
day, discarding any stripped window. -/
def tryOneshot (v : List String) (shift : Shift) (ex : IRExcept) :
    Option (Option IRRule) :=
  match v with
  | d :: "at" :: rest =>
    if isDateWord d ∧ rest ≠ [] then
      some (do
        let dd ← parse_date d
        let t ← parse_time (joinWords rest)
        pure { type := .oneshot,
               at_ := some (dayStart dd + t.toSec),
               window_date := some ⟨some dd, some dd, none⟩,
               except_ := ex, weekend_shift := shift })
    else none
  | _ => none

/-- `every year on (\d{2})-(\d{2}) at (.+)` — the numerals are taken
unvalidated. -/
def tryYearMD (v : List String) (shift : Shift) (window : Option IRWindowDate)
    (ex : IRExcept) : Option (Option IRRule) :=
  match v with
  | "every" :: "year" :: "on" :: md :: "at" :: rest =>
    match mdParts md with
    | some (mm, dd) =>
      if rest ≠ [] then
        some (do
          let t ← parse_time (joinWords rest)
          pure { type := .rrule, freq := some .yearly, interval := 1,
                 bymonth := some [mm], bymonthday := some [dd], times := [t],
                 window_date := window, except_ := ex, weekend_shift := shift })
      else none
    | none => none
  | _ => none

/-- `every (day|weekday) every (\d+) (hours|minutes) between (.+?) and (.+)`. -/
def tryStepWithinDay (v : List String) (shift : Shift) (window : Option IRWindowDate)
    (ex : IRExcept) : Option (Option IRRule) :=
  match v with
  | "every" :: base :: "every" :: n :: unit :: "between" :: rest =>
    if (base = "day" ∨ base = "weekday") ∧ isDigitsWord n ∧
        (unit = "hours" ∨ unit = "minutes") then
      match splitFirstKW "and" [] rest with
      | some (t1ws, t2ws) =>
        some (do
          let t1 ← parse_time (joinWords t1ws)
          let t2 ← parse_time (joinWords t2ws)
          let cnt := natOfDigits n.toList
          pure { type := .rrule, freq := some .daily, interval := 1,
                 byweekday := if base = "weekday" then some [0, 1, 2, 3, 4] else none,
                 between_time := some ⟨t1, t2⟩,
                 step := if unit = "hours" then some ⟨none, some cnt⟩ else some ⟨some cnt, none⟩,
                 window_date := window, except_ := ex, weekend_shift := shift })
      | none => none
    else none
  | _ => none

/-- `every (\d+) hours between (.+?) and (.+)`. -/
def tryNHoursBetween (v : List String) (shift : Shift) (window : Option IRWindowDate)
    (ex : IRExcept) : Option (Option IRRule) :=
  match v with
  | "every" :: n :: "hours" :: "between" :: rest =>
    if isDigitsWord n then
      match splitFirstKW "and" [] rest with
      | some (t1ws, t2ws) =>
        some (do
          let t1 ← parse_time (joinWords t1ws)
          let t2 ← parse_time (joinWords t2ws)
          pure { type := .rrule, freq := some .hourly, interval := natOfDigits n.toList,
                 between_time := some ⟨t1, t2⟩,
                 window_date := window, except_ := ex, weekend_shift := shift })
      | none => none
    else none
  | _ => none

/-- `every hour between (.+?) and (.+)`. -/
def tryHourBetween (v : List String) (shift : Shift) (window : Option IRWindowDate)
    (ex : IRExcept) : Option (Option IRRule) :=
  match v with
  | "every" :: "hour" :: "between" :: rest =>
    match splitFirstKW "and" [] rest with
    | some (t1ws, t2ws) =>
      some (do
        let t1 ← parse_time (joinWords t1ws)
        let t2 ← parse_time (joinWords t2ws)
        pure { type := .rrule, freq := some .hourly, interval := 1,
               between_time := some ⟨t1, t2⟩,
               window_date := window, except_ := ex, weekend_shift := shift })
    | none => none
  | _ => none

/-- `every (\d+) (minutes|hours|days|weeks)(?: on (.+?))?(?: at (.+))?`. -/
def tryPeriodic (v : List String) (shift : Shift) (window : Option IRWindowDate)
    (ex : IRExcept) : Option (Option IRRule) :=
  match v with
  | "every" :: n :: unit :: tail =>
    if isDigitsWord n ∧ (unit = "minutes" ∨ unit = "hours" ∨ unit = "days" ∨ unit = "weeks") then
      let freq : Freq :=
        if unit = "minutes" then .minutely
        else if unit = "hours" then .hourly
        else if unit = "days" then .daily
        else .weekly
      let commit : List String → List String → Option (Option IRRule) := fun onws atws =>
        some (do
          let wds := parse_weekday_list onws
          let times ← parseTimeList atws
          pure { type := .rrule, freq := some freq, interval := natOfDigits n.toList,
                 byweekday := if wds ≠ [] then some (wds.filterMap weekdayIdx) else none,
                 times := times,
                 window_date := window, except_ := ex, weekend_shift := shift })
      match tail with
      | [] => commit [] []
      | "on" :: t1 =>
        if t1 = [] then none
        else
          match splitFirstKW "at" [] t1 with
          | some (onws, atws) => commit onws atws
          | none => commit t1 []
      | "at" :: t2 => if t2 = [] then none else commit [] t2
      | _ => none
    else none
  | _ => none

/-- `every weekday at (.+)`. -/
def tryWeekdayAt (v : List String) (shift : Shift) (window : Option IRWindowDate)
    (ex : IRExcept) : Option (Option IRRule) :=
  match v with
  | "every" :: "weekday" :: "at" :: rest =>
    if rest ≠ [] then
      some (do
        let times ← parseTimeList rest
        pure { type := .rrule, freq := some .daily, interval := 1,
               byweekday := some [0, 1, 2, 3, 4], times := times,
               window_date := window, except_ := ex, weekend_shift := shift })
    else none
  | _ => none

/-- `every day at (.+)`. -/
def tryDayAt (v : List String) (shift : Shift) (window : Option IRWindowDate)
    (ex : IRExcept) : Option (Option IRRule) :=
  match v with
  | "every" :: "day" :: "at" :: rest =>
    if rest ≠ [] then
      some (do
        let times ← parseTimeList rest
        pure { type := .rrule, freq := some .daily, interval := 1, times := times,
               window_date := window, except_ := ex, weekend_shift := shift })
    else none
  | _ => none

/-- `every (.+?) at (.+)` with a pure weekday-name list; falls through when
the list check fails. -/
def tryWeekdayList (v : List String) (shift : Shift) (window : Option IRWindowDate)
    (ex : IRExcept) : Option (Option IRRule) :=
  match v with
  | "every" :: tail =>
    match splitFirstKW "at" [] tail with
    | some (dayws, atws) =>
      let tokens := (dayws.flatMap splitCommas).filter (· ≠ "and")
      if tokens ≠ [] ∧ tokens.all (fun t => (weekdayIdx t).isSome) then
        some (do
          let times ← parseTimeList atws
          pure { type := .rrule, freq := some .weekly, interval := 1,
                 byweekday := some (tokens.filterMap weekdayIdx), times := times,
                 window_date := window, except_ := ex, weekend_shift := shift })
      else none
    | none => none
  | _ => none

/-- `every year on the <ord> <weekday> of <month> at (.+)`. -/
def tryYearlyNth (v : List String) (shift : Shift) (window : Option IRWindowDate)
    (ex : IRExcept) : Option (Option IRRule) :=
  match v with
  | "every" :: "year" :: "on" :: "the" :: ordw :: wdw :: "of" :: monthw :: "at" :: rest =>
    match ordinalIdx ordw, weekdayIdx wdw, monthIdx monthw with
    | some pos, some wd, some mm =>
      if rest ≠ [] then
        some (do
          let t ← parse_time (joinWords rest)
          pure { type := .rrule, freq := some .yearly, interval := 1,
                 bymonth := some [mm], byweekday := some [wd], bysetpos := some [pos],
                 times := [t],
                 window_date := window, except_ := ex, weekend_shift := shift })
      else none
    | _, _, _ => none
  | _ => none

/-- `every month on the (.+?) at (.+)`: `last day`, day-numeral lists (with
optional ordinal suffixes), or `<ord> <weekday>`. -/
def tryMonthly (v : List String) (shift : Shift) (window : Option IRWindowDate)
    (ex : IRExcept) : Option (Option IRRule) :=
  match v with
  | "every" :: "month" :: "on" :: "the" :: tail =>
    match splitFirstKW "at" [] tail with
    | some (onws, atws) =>
      some (do
        let t ← parse_time (joinWords atws)
        if onws = ["last", "day"] then
          pure { type := .rrule, freq := some .monthly, interval := 1,
                 bymonthday := some [-1], times := [t],
                 window_date := window, except_ := ex, weekend_shift := shift }
        else
          let nums := findNums (joinWords onws).toList
          if nums ≠ [] ∧ nums.all (fun x => 1 ≤ x ∧ x ≤ 31) then
            pure { type := .rrule, freq := some .monthly, interval := 1,
                   bymonthday := some (nums.map (Int.ofNat)), times := [t],
                   window_date := window, except_ := ex, weekend_shift := shift }
          else
            match onws with
            | [ordw, wdw] =>
              match ordinalIdx ordw, weekdayIdx wdw with
              | some pos, some wd =>
                pure { type := .rrule, freq := some .monthly, interval := 1,
                       byweekday := some [wd], bysetpos := some [pos], times := [t],
                       window_date := window, except_ := ex, weekend_shift := shift }
              | _, _ => none
            | _ => none)
    | none => none
  | _ => none

/-- Chain of `fullmatch` branches: take the first branch whose regex
matched, committing to its result. -/
def orTry (a : Option (Option IRRule)) (b : Unit → Option IRRule) : Option IRRule :=
  match a with
  | some res => res
  | none => b ()

/-- `recpyx.en.parse_rule`: normalize, strip suffixes, lift a mid-rule
`except`, then try the shape branches in source order. `none` models a
raised `ValueError`. -/
def parse_rule (text : String) : Option IRRule := do
  let ws0 := normWords text
  let st ← stripLoop (ws0.length + 1) ⟨ws0, .none, ⟨none, none, none⟩, IRExcept.empty⟩
  let (v, ex) ←
    match findMidExceptGo [] st.words with
    | some (pre, grp, suf) => do
      let ex' ← applyExcept grp st.ex
      pure (pre ++ ["at"] ++ suf, ex')
    | none => pure (st.words, st.ex)
  let window :=
    if st.window.start.isSome ∨ st.window.stop.isSome ∨ st.window.until_.isSome then
      some st.window
    else none
  orTry (tryOneshot v st.shift ex) fun _ =>
  orTry (tryYearMD v st.shift window ex) fun _ =>
  orTry (tryStepWithinDay v st.shift window ex) fun _ =>
  orTry (tryNHoursBetween v st.shift window ex) fun _ =>
  orTry (tryHourBetween v st.shift window ex) fun _ =>
  orTry (tryPeriodic v st.shift window ex) fun _ =>
  orTry (tryWeekdayAt v st.shift window ex) fun _ =>
  orTry (tryDayAt v st.shift window ex) fun _ =>
  orTry (tryWeekdayList v st.shift window ex) fun _ =>
  orTry (tryYearlyNth v st.shift window ex) fun _ =>
  orTry (tryMonthly v st.shift window ex) fun _ => none

/-- A word of the shape `[A-Za-z]+/[A-Za-z_]+` (with `_` allowed; one
slash, both sides non-empty letter runs). -/
def isTzWord (w : String) : Bool :=
  let isAl : Char → Bool := fun c =>
    ('a' ≤ c ∧ c ≤ 'z') ∨ ('A' ≤ c ∧ c ≤ 'Z') ∨ c = '_'
  match splitRuns (· = '/') [] w.data with
  | [a, b] =>
    a.data.all isAl ∧ b.data.all isAl ∧ w.data.count '/' = 1 ∧
    w.data.head? ≠ some '/' ∧ w.data.getLast? ≠ some '/'
  | _ => false

/-- `recpyx.en._normalize_tz` (backslashes to slashes, whitespace
removed). -/
def _normalize_tz (w : String) : String :=
  String.mk (((w.toList.map (fun c => if c = '\\' then '/' else c)).filter
    (fun c => ¬ c.isWhitespace)))

/-- ASCII lowering of one word (the split regex runs with
`re.IGNORECASE`). -/
def lowerWord (w : String) : String := String.mk (w.data.map Char.toLower)

/-- The word-level `re.split(r"\s*,\s*and\s+", raw, flags=re.I)`: a
boundary is a comma directly before a case-insensitive `and` (possibly
inside a word) with a word after. -/
def splitComposedGo (acc : List String) : List String → List (List String)
  | [] => [acc.reverse]
  | [w] => [(w :: acc).reverse]
  | w :: w2 :: rest =>
    if strEndsWith (lowerWord w) ",and" then
      let y := strDropRight w 4
      let left := if y = "" then acc.reverse else (y :: acc).reverse
      left :: splitComposedGo [] (w2 :: rest)
    else if lowerWord w2 = "and" ∧ rest ≠ [] ∧ w = "," then
      acc.reverse :: splitComposedGo [] rest
    else if lowerWord w2 = "and" ∧ rest ≠ [] ∧ strEndsWith w "," then
      ((strDropRight w 1 :: acc).reverse) :: splitComposedGo [] rest
    else splitComposedGo (w :: acc) (w2 :: rest)

/-- `recpyx.en.parse_schedule`: strip a trailing `in Area/Zone`, split the
composed rules on `", and"` only, parse each. -/
def parse_schedule (text : String) (default_tz : String) : Option IRSchedule := do
  let raw := normWordsRaw text
  let (tz, raw) :=
    match raw.reverse with
    | z :: "in" :: r :: rest =>
      if isTzWord z then (_normalize_tz z, (r :: rest).reverse) else (default_tz, raw)
    | _ => (default_tz, raw)
  let ruleTexts := (splitComposedGo [] raw).filter (· ≠ [])
  let rules ← ruleTexts.mapM (fun ws => parse_rule (joinWords ws))
  pure ⟨tz, rules⟩

/-! ## Text-level engine entry points -/

/-- Message standing for the parser's `ValueError`s. -/
def parseErrMsg : String := "Unsupported rule"

/-- `recpyx.engine.next_occurrence(text, now, default_tz)`. -/
def next_occurrence (fuel : Nat) (text : String) (now : Int) (default_tz : String) :
    PyResult Int :=
  match parse_schedule text default_tz with
  | none => .exc (.valueError parseErrMsg)
  | some sched => next_occurrence_sched fuel sched now

/-- `f"No occurrence exists in horizon for rule ..."`. -/
def noHorizonMsg (text : String) : String :=
  "No occurrence exists in horizon for rule " ++ text

/-- The per-rule loop of `recpyx.engine.validate`. -/
def validateRules (fuel : Nat) (text : String) (default_tz : String) (now : Int) :
    List IRRule → PyResult Unit
  | [] => .ok ()
  | r :: rest =>
    let wse := _window_datetimes r.window_date
    if (match wse.1, wse.2 with
        | some ws, some we => decide (we < ws)
        | _, _ => false) then
      .exc (.invalidRuleError ("Invalid window: end < start for rule " ++ text))
    else
      match r.type with
      | .oneshot =>
        match r.at_ with
        | none => .exc (.valueError "AssertionError: dt is not None")
        | some dt =>
          if dtWeekday dt ∈ r.except_.weekdays then
            .exc (.invalidRuleError ("One-shot excluded by weekday exception for rule " ++ text))
          else if dtDay dt ∈ r.except_.dates then
            .exc (.invalidRuleError ("One-shot excluded by date exception for rule " ++ text))
          else if (match wse.1 with | some ws => decide (dt < ws) | none => false) then
            .exc (.invalidRuleError ("One-shot before window start for rule " ++ text))
          else if (match wse.2 with | some we => decide (we < dt) | none => false) then
            .exc (.invalidRuleError ("One-shot after window end for rule " ++ text))
          else validateRules fuel text default_tz now rest
      | .rrule =>
        let horizon := wse.2.getD (now + 366 * 86400)
        match next_occurrence fuel text now default_tz with
        | .exc (.runtimeError _) => .exc (.invalidRuleError (noHorizonMsg text))
        | .exc e => .exc e
        | .hang => .hang
        | .ok dt =>
          if horizon < dt then .exc (.invalidRuleError (noHorizonMsg text))
          else validateRules fuel text default_tz now rest

/-- `recpyx.engine.validate(rule_text, now, default_tz)`: window coherence,
one-shot self-exclusion, and a bounded-horizon emptiness check that maps
the engine's `RuntimeError`s into `InvalidRuleError`. -/
def validate (fuel : Nat) (text : String) (now : Int) (default_tz : String) :
    PyResult Unit :=
  match parse_schedule text default_tz with
  | none => .exc (.valueError parseErrMsg)
  | some sched => validateRules fuel text default_tz (floorMinute now) sched.rules

/-! ## Shared reference instant of the spec's scenarios -/

/-- `2026-03-12T12:00:00` local wall time (a Thursday). -/
def now2026 : Int := mkDT 2026 3 12 12 0

end Recpyx

namespace Recpyx

/-- **C1.** For `every day every 2 hours between 09:00 and 17:00` with
`now = 2026-03-12T12:00:00` in `Europe/Paris`, `next_occurrence` returns
`2026-03-12T13:00:00`: on the qualifying day the slots run from
`between_time.start` in `step` strides up to and including
`between_time.end` (here 09:00, 11:00, 13:00, 15:00, 17:00), and
`_expand_step_within_day` selects the first slot strictly after `now`,
the engine having re-probed the same day after the daily expander jumped
to the next day. -/
theorem c1_step_within_day_scenario :
    next_occurrence 600 "every day every 2 hours between 09:00 and 17:00" now2026
      "Europe/Paris" = .ok (mkDT 2026 3 12 13 0) ∧
    _expand_step_within_day 600 now2026 ⟨none, some 2⟩ ⟨⟨9, 0⟩, ⟨17, 0⟩⟩ now2026 =
      .ok (some (mkDT 2026 3 12 13 0)) ∧
    expandLoop 600 7200 (mkDT 2026 3 12 17 0) now2026 (mkDT 2026 3 12 9 0) =
      .ok (some (mkDT 2026 3 12 13 0)) := by
  refine ⟨by decide, by decide, by decide⟩

/-- **C8.** With `now = 2026-03-12T12:00:00` in `Europe/Paris`,
`validate "every day at 10:00 until 2026-03-13 except 2026-03-13"` raises
`InvalidRuleError`: the only firing inside the `until` horizon
(2026-03-13 10:00) is excluded by the date exception, so the engine finds
no candidate and its `RuntimeError` is reclassified as the no-occurrence
`InvalidRuleError`. -/
theorem c8_validate_horizon_excluded :
    validate 600 "every day at 10:00 until 2026-03-13 except 2026-03-13" now2026
      "Europe/Paris" =
      .exc (.invalidRuleError
        (noHorizonMsg "every day at 10:00 until 2026-03-13 except 2026-03-13")) := by
  decide

/-! ### C4: `byweekday` and the minutely/hourly expanders -/

/-- The rrule the engine builds for `every 2 hours on monday at 10:00`
anchored at Thursday 2026-03-12 10:00. -/
def c4rr : RRule :=
  rruleMk .hourly 2 (mkDT 2026 3 12 10 0) none (some [0]) none none (some 10) (some 0)

/-- **C4 counterexample.** An hourly rule with `byweekday = [monday]`
anchored on a Thursday emits its very next candidate on that same Thursday
(weekday 3, not in `byweekday`): `_after_hourly` applies no weekday
filter, refuting the claim that every emitted candidate falls on a
`byweekday` day. -/
theorem c4_counterexample :
    rruleAfter 100 c4rr (mkDT 2026 3 12 10 0) false = .ok (mkDT 2026 3 12 12 0) ∧
    c4rr.byweekday = some [0] ∧
    dtWeekday (mkDT 2026 3 12 12 0) = 3 ∧ (3 : Int) ∉ [(0 : Int)] := by
  decide

/-- **C4 (amended).** The minutely and hourly expanders step from the
anchor in `interval` units and return the first step strictly after the
cursor, applying no `byweekday` filter at all: the next candidate is
independent of the `byweekday` selector (only `_after_daily` filters by
weekday). -/
theorem c4_hourly_ignores_byweekday (fuel : Nat) (rr : RRule) (target : Int) (inc : Bool)
    (wd : Option (List Int)) (h : rr.freq = .hourly ∨ rr.freq = .minutely) :
    rruleAfter fuel { rr with byweekday := wd } target inc = rruleAfter fuel rr target inc := by
  rcases h with h | h <;>
    simp [rruleAfter, h, _after_hourly, _after_minutely]

/-- Witness for `c4_hourly_ignores_byweekday` at the concrete rule of the
counterexample. -/
theorem c4_hourly_ignores_byweekday_witness :
    (c4rr.freq = .hourly ∨ c4rr.freq = .minutely) ∧
    rruleAfter 100 { c4rr with byweekday := none } (mkDT 2026 3 12 10 0) false =
      rruleAfter 100 c4rr (mkDT 2026 3 12 10 0) false :=
  ⟨Or.inl rfl, c4_hourly_ignores_byweekday 100 c4rr (mkDT 2026 3 12 10 0) false none (Or.inl rfl)⟩

/-! ### C7: monthly expansion with the anchor's day-of-month -/

/-- A monthly rrule with no `bysetpos`/`byweekday` pair and no
`bymonthday`, anchored on 2026-01-31. -/
def c7rr : RRule :=
  rruleMk .monthly 1 (mkDT 2026 1 31 9 0) none none none none (some 9) (some 0)

/-- **C7 counterexample.** For the plain monthly rule anchored on a 31st,
February does not "yield no candidate": `_month_candidates` raises
`ValueError` (the `datetime(year, month, dtstart.day)` construction
fails), and `rrule.after` propagates it instead of scanning on to
March. -/
theorem c7_counterexample :
    _month_candidates c7rr 2026 2 = .exc (.valueError "day is out of range for month") ∧
    rruleAfter 100 c7rr (mkDT 2026 1 31 10 0) false =
      .exc (.valueError "day is out of range for month") := by
  decide

/-- **C7 (amended).** For a monthly rule with neither the
`bysetpos`+`byweekday` pair nor `bymonthday`, and a year inside `date()`'s
1..9999 range, a month shorter than the anchor's day-of-month makes the
expander raise `ValueError` (no silent clamping, but an error rather than
a skipped month); a month at least as long yields exactly the anchor-day
candidate. (Outside the year range the `datetime` construction raises the
year-range `ValueError` instead.) -/
theorem c7_month_candidates_plain (rr : RRule) (y m : Int)
    (hsel : ¬ (truthy rr.bysetpos ∧ truthy rr.byweekday))
    (hmd : truthy rr.bymonthday = false)
    (hmon : ¬ (truthy rr.bymonth ∧ m ∉ rr.bymonth.getD []))
    (hy : 1 ≤ y ∧ y ≤ 9999)
    (hm : 1 ≤ m ∧ m ≤ 12) (hday : 1 ≤ (dtCivil rr.dtstart).day) :
    (monthLength y m < (dtCivil rr.dtstart).day →
      _month_candidates rr y m = .exc (.valueError dayRangeMsg)) ∧
    ((dtCivil rr.dtstart).day ≤ monthLength y m →
      _month_candidates rr y m =
        .ok [_time_for rr (dayStart (daysFromCivil y m (dtCivil rr.dtstart).day))]) := by
  unfold _month_candidates
  rw [if_neg hmon, if_neg hsel, if_neg (by simp [hmd])]
  constructor
  · intro hlt
    have hc : _check_date_fields y m (dtCivil rr.dtstart).day =
        .exc (.valueError dayRangeMsg) := by
      unfold _check_date_fields
      rw [if_neg (by omega), if_neg (by omega), if_pos (by omega)]
    simp only [hc, PyResult.exc_bind]
  · intro hle
    have hc : _check_date_fields y m (dtCivil rr.dtstart).day = .ok () := by
      unfold _check_date_fields
      rw [if_neg (by omega), if_neg (by omega), if_neg (by omega)]
    simp only [hc, PyResult.ok_bind, PyResult.pure_eq_ok]
    rfl

/-- Witness for `c7_month_candidates_plain` at the counterexample's rule
and month (February 2026, anchor day 31). -/
theorem c7_month_candidates_plain_witness :
    (¬ (truthy c7rr.bysetpos ∧ truthy c7rr.byweekday)) ∧
    truthy c7rr.bymonthday = false ∧
    (¬ (truthy c7rr.bymonth ∧ (2 : Int) ∉ c7rr.bymonth.getD [])) ∧
    ((1 : Int) ≤ 2026 ∧ (2026 : Int) ≤ 9999) ∧
    ((1 : Int) ≤ 2 ∧ (2 : Int) ≤ 12) ∧ 1 ≤ (dtCivil c7rr.dtstart).day ∧
    ((monthLength 2026 2 < (dtCivil c7rr.dtstart).day →
        _month_candidates c7rr 2026 2 = .exc (.valueError dayRangeMsg)) ∧
      ((dtCivil c7rr.dtstart).day ≤ monthLength 2026 2 →
        _month_candidates c7rr 2026 2 =
          .ok [_time_for c7rr (dayStart (daysFromCivil 2026 2 (dtCivil c7rr.dtstart).day))])) :=
  ⟨by decide, by decide, by decide, by decide, by decide, by decide,
    c7_month_candidates_plain c7rr 2026 2 (by decide) (by decide) (by decide)
      (by decide) (by decide) (by decide)⟩

/-! ### C6: parser intervals -/

/-- **C6 counterexample.** The parser accepts `every 0 days at 10:00` and
produces a `Recurring` rule with `interval = 0`: the claimed invariant
`interval ≥ 1` fails. -/
theorem c6_counterexample :
    (parse_rule "every 0 days at 10:00").map (fun r => (r.type, r.interval)) =
      some (RuleType.rrule, 0) := by
  decide

/-- Suffix dropping keeps a sublist of the input words. -/
theorem dropSuffixNE_subset (ws pat pre : List String)
    (h : dropSuffixNE ws pat = some pre) : pre ⊆ ws := by
  unfold dropSuffixNE at h
  split at h
  · have := Option.some.inj h
    subst this
    exact List.take_subset _ _
  · exact Option.noConfusion h

/-- The `between` clause keeps a sublist of the input words. -/
theorem stripBetween_subset (ws pre : List String) (d1 d2 : String)
    (h : stripBetween ws = some (pre, d1, d2)) : pre ⊆ ws := by
  unfold stripBetween at h
  split at h
  · rename_i d2x d1x r rest heq
    split at h
    · have hp : (r :: rest).reverse = pre := congrArg (fun q => q.1) (Option.some.inj h)
      intro x hx
      rw [← hp, List.mem_reverse] at hx
      rw [← List.mem_reverse, heq]
      exact List.mem_cons_of_mem _ (List.mem_cons_of_mem _ (List.mem_cons_of_mem _
        (List.mem_cons_of_mem _ hx)))
    · exact Option.noConfusion h
  · exact Option.noConfusion h

/-- The `until` clause keeps a sublist of the input words. -/
theorem stripUntil_subset (ws pre : List String) (d : String)
    (h : stripUntil ws = some (pre, d)) : pre ⊆ ws := by
  unfold stripUntil at h
  split at h
  · rename_i dx r rest heq
    split at h
    · have hp : (r :: rest).reverse = pre := congrArg (fun q => q.1) (Option.some.inj h)
      intro x hx
      rw [← hp, List.mem_reverse] at hx
      rw [← List.mem_reverse, heq]
      exact List.mem_cons_of_mem _ (List.mem_cons_of_mem _ hx)
    · exact Option.noConfusion h
  · exact Option.noConfusion h

/-- The prefix returned by the trailing-`except` scan is a sublist of the
accumulator plus the remaining words. -/
theorem findExceptGo_subset (l : List String) : ∀ accRev pre exws : List String,
    findExceptGo accRev l = some (pre, exws) → pre ⊆ accRev.reverse ++ l := by
  induction l with
  | nil =>
    intro accRev pre exws h
    exact Option.noConfusion h
  | cons w rest ih =>
    intro accRev pre exws h
    rw [findExceptGo] at h
    split at h
    · have hp : accRev.reverse = pre := congrArg (fun q => q.1) (Option.some.inj h)
      intro x hx
      rw [← hp] at hx
      exact List.mem_append_left _ hx
    · intro x hx
      have hx2 := ih (w :: accRev) pre exws h hx
      rw [List.reverse_cons, List.append_assoc] at hx2
      simpa using hx2

/-- The prefix kept by the trailing-`except` strip is a sublist of the
input words. -/
theorem findExceptSuffix_subset (ws pre exws : List String)
    (h : findExceptSuffix ws = some (pre, exws)) : pre ⊆ ws := by
  rcases ws with _ | ⟨w, rest⟩
  · exact Option.noConfusion h
  · have := findExceptGo_subset rest [w] pre exws h
    simpa using this

/-- The part after the keyword in a lazy keyword split is a sublist of the
scanned words. -/
theorem splitFirstKW_suffix_subset (kw : String) (l : List String) :
    ∀ accRev a b : List String, splitFirstKW kw accRev l = some (a, b) → b ⊆ l := by
  induction l with
  | nil =>
    intro accRev a b h
    exact Option.noConfusion h
  | cons w rest ih =>
    intro accRev a b h
    rw [splitFirstKW] at h
    split at h
    · have hb : rest = b := congrArg (fun q => q.2) (Option.some.inj h)
      intro x hx
      rw [← hb] at hx
      exact List.mem_cons_of_mem _ hx
    · intro x hx
      exact List.mem_cons_of_mem _ (ih (w :: accRev) a b h hx)

/-- The pieces kept by the mid-`except` rewrite are sublists of the
accumulator plus the remaining words. -/
theorem findMidExceptGo_subset (l : List String) : ∀ accRev pre grp suf : List String,
    findMidExceptGo accRev l = some (pre, grp, suf) →
    pre ⊆ accRev.reverse ++ l ∧ suf ⊆ l := by
  induction l with
  | nil =>
    intro accRev pre grp suf h
    exact Option.noConfusion h
  | cons w rest ih =>
    intro accRev pre grp suf h
    rw [findMidExceptGo] at h
    split at h
    · split at h
      · rename_i grpx sufx heq
        have hinj := Option.some.inj h
        have hpre : accRev.reverse = pre := congrArg (fun q => q.1) hinj
        have hsuf : sufx = suf := congrArg (fun q => q.2.2) hinj
        constructor
        · intro x hx
          rw [← hpre] at hx
          exact List.mem_append_left _ hx
        · intro x hx
          rw [← hsuf] at hx
          exact List.mem_cons_of_mem _
            (splitFirstKW_suffix_subset "at" rest [] grpx sufx heq hx)
      · rcases ih (w :: accRev) pre grp suf h with ⟨h1, h2⟩
        constructor
        · intro x hx
          have hx2 := h1 hx
          rw [List.reverse_cons, List.append_assoc] at hx2
          simpa using hx2
        · intro x hx
          exact List.mem_cons_of_mem _ (h2 hx)
    · rcases ih (w :: accRev) pre grp suf h with ⟨h1, h2⟩
      constructor
      · intro x hx
        have hx2 := h1 hx
        rw [List.reverse_cons, List.append_assoc] at hx2
        simpa using hx2
      · intro x hx
        exact List.mem_cons_of_mem _ (h2 hx)

/-- The weekend stage keeps a sublist of the input words. -/
theorem stripWeekendStage_subset (ws : List String) (sh : Shift) :
    (stripWeekendStage ws sh).1 ⊆ ws := by
  rcases h1 : dropSuffixNE ws ["if", "weekend", "then", "next", "monday"] with _ | pre1
  · rcases h2 : dropSuffixNE ws ["if", "weekend", "then", "next", "business", "day"]
        with _ | pre2
    · simp only [stripWeekendStage, h1, h2]
      exact fun x hx => hx
    · simp only [stripWeekendStage, h1, h2]
      exact dropSuffixNE_subset ws _ pre2 h2
  · simp only [stripWeekendStage, h1]
    exact dropSuffixNE_subset ws _ pre1 h1

/-- The `between` stage keeps a sublist of the input words. -/
theorem stripBetweenStage_subset (ws ws2 : List String) (w w2 : IRWindowDate) (ch : Bool)
    (h : stripBetweenStage ws w = some (ws2, w2, ch)) : ws2 ⊆ ws := by
  unfold stripBetweenStage at h
  split at h
  · rename_i pre d1 d2 heq
    rcases hd1 : parse_date d1 with _ | s <;> rw [hd1] at h <;>
      simp only [Option.bind_eq_bind, Option.some_bind, Option.none_bind] at h
    · exact Option.noConfusion h
    · rcases hd2 : parse_date d2 with _ | e <;> rw [hd2] at h <;>
        simp only [Option.bind_eq_bind, Option.some_bind, Option.none_bind] at h
      · exact Option.noConfusion h
      · simp only [Option.pure_def, Option.some.injEq] at h
        have hws : pre = ws2 := congrArg (fun q => q.1) h
        subst hws
        exact stripBetween_subset ws _ d1 d2 heq
  · simp only [Option.pure_def, Option.some.injEq] at h
    have hws : ws = ws2 := congrArg (fun q => q.1) h
    subst hws
    exact fun x hx => hx

/-- The `until` stage keeps a sublist of the input words. -/
theorem stripUntilStage_subset (ws ws2 : List String) (w w2 : IRWindowDate) (ch : Bool)
    (h : stripUntilStage ws w = some (ws2, w2, ch)) : ws2 ⊆ ws := by
  unfold stripUntilStage at h
  split at h
  · rename_i pre d heq
    rcases hd : parse_date d with _ | u <;> rw [hd] at h <;>
      simp only [Option.bind_eq_bind, Option.some_bind, Option.none_bind] at h
    · exact Option.noConfusion h
    · simp only [Option.pure_def, Option.some.injEq] at h
      have hws : pre = ws2 := congrArg (fun q => q.1) h
      subst hws
      exact stripUntil_subset ws _ d heq
  · simp only [Option.pure_def, Option.some.injEq] at h
    have hws : ws = ws2 := congrArg (fun q => q.1) h
    subst hws
    exact fun x hx => hx

/-- The `except` stage keeps a sublist of the input words. -/
theorem stripExceptStage_subset (ws ws2 : List String) (e e2 : IRExcept) (ch : Bool)
    (h : stripExceptStage ws e = some (ws2, e2, ch)) : ws2 ⊆ ws := by
  unfold stripExceptStage at h
  split at h
  · rename_i pre exws heq
    split at h
    · simp only [Option.pure_def, Option.some.injEq] at h
      have hws : ws = ws2 := congrArg (fun q => q.1) h
      subst hws
      exact fun x hx => hx
    · rcases ha : applyExcept exws e with _ | ex2 <;> rw [ha] at h <;>
        simp only [Option.bind_eq_bind, Option.some_bind, Option.none_bind] at h
      · exact Option.noConfusion h
      · simp only [Option.pure_def, Option.some.injEq] at h
        have hws : pre = ws2 := congrArg (fun q => q.1) h
        subst hws
        exact findExceptSuffix_subset ws _ exws heq
  · simp only [Option.pure_def, Option.some.injEq] at h
    have hws : ws = ws2 := congrArg (fun q => q.1) h
    subst hws
    exact fun x hx => hx

/-- One stripping pass keeps a sublist of the input words. -/
theorem stripPass_subset (st st2 : StripState) (ch : Bool)
    (h : stripPass st = some (st2, ch)) : st2.words ⊆ st.words := by
  unfold stripPass at h
  rcases hw : stripWeekendStage st.words st.shift with ⟨ws1, sh1, ch1⟩
  rw [hw] at h
  simp only [] at h
  have hws1 : ws1 ⊆ st.words := by
    have hsb := stripWeekendStage_subset st.words st.shift
    rw [hw] at hsb
    exact hsb
  rcases hb : stripBetweenStage ws1 st.window with _ | ⟨ws2, w2, ch2⟩ <;> rw [hb] at h <;>
    simp only [Option.bind_eq_bind, Option.some_bind, Option.none_bind] at h
  · exact Option.noConfusion h
  · rcases hu : stripUntilStage ws2 w2 with _ | ⟨ws3, w3, ch3⟩ <;> rw [hu] at h <;>
      simp only [Option.bind_eq_bind, Option.some_bind, Option.none_bind] at h
    · exact Option.noConfusion h
    · rcases he : stripExceptStage ws3 st.ex with _ | ⟨ws4, e4, ch4⟩ <;> rw [he] at h <;>
        simp only [Option.bind_eq_bind, Option.some_bind, Option.none_bind] at h
      · exact Option.noConfusion h
      · simp only [Option.pure_def, Option.some.injEq] at h
        have hst : (⟨ws4, sh1, w3, e4⟩ : StripState) = st2 := congrArg (fun q => q.1) h
        have hwe : st2.words = ws4 := by
          rw [← hst]
        rw [hwe]
        exact ((stripExceptStage_subset ws3 ws4 st.ex e4 ch4 he).trans
          (stripUntilStage_subset ws2 ws3 w2 w3 ch3 hu)).trans
          ((stripBetweenStage_subset ws1 ws2 st.window w2 ch2 hb).trans hws1)

/-- The whole stripping loop keeps a sublist of the input words. -/
theorem stripLoop_subset : ∀ (n : Nat) (st st2 : StripState),
    stripLoop n st = some st2 → st2.words ⊆ st.words := by
  intro n
  induction n with
  | zero =>
    intro st st2 h
    have := Option.some.inj h
    subst this
    exact fun x hx => hx
  | succ n ih =>
    intro st st2 h
    rw [stripLoop] at h
    rcases hp : stripPass st with _ | ⟨st1, changed⟩ <;> rw [hp] at h <;>
      simp only [Option.bind_eq_bind, Option.some_bind, Option.none_bind] at h
    · exact Option.noConfusion h
    · split at h
      · exact (ih st1 st2 h).trans (stripPass_subset st st1 changed hp)
      · rw [← Option.some.inj h]
        exact stripPass_subset st st1 changed hp

/-- The one-shot branch hardcodes `interval = 1` (the field default). -/
theorem tryOneshot_interval (v : List String) (sh : Shift) (ex : IRExcept)
    (res : Option IRRule) (r : IRRule) (h : tryOneshot v sh ex = some res)
    (hr : res = some r) : r.interval = 1 := by
  subst hr
  unfold tryOneshot at h
  split at h
  · split at h
    · have hres := Option.some.inj h
      rcases Option.bind_eq_some.mp hres with ⟨dd, hdd, hres2⟩
      rcases Option.bind_eq_some.mp hres2 with ⟨t, ht, hres3⟩
      simp only [Option.pure_def, Option.some.injEq] at hres3
      rw [← hres3]
    · exact Option.noConfusion h
  · exact Option.noConfusion h

/-- The `every year on MM-DD` branch hardcodes `interval = 1`. -/
theorem tryYearMD_interval (v : List String) (sh : Shift) (w : Option IRWindowDate)
    (ex : IRExcept) (res : Option IRRule) (r : IRRule)
    (h : tryYearMD v sh w ex = some res) (hr : res = some r) : r.interval = 1 := by
  subst hr
  unfold tryYearMD at h
  split at h
  · split at h
    · split at h
      · have hres := Option.some.inj h
        rcases Option.bind_eq_some.mp hres with ⟨t, ht, hres2⟩
        simp only [Option.pure_def, Option.some.injEq] at hres2
        rw [← hres2]
      · exact Option.noConfusion h
    · exact Option.noConfusion h
  · exact Option.noConfusion h

/-- The step-within-day branch hardcodes `interval = 1` (the numeral goes
into `step`). -/
theorem tryStepWithinDay_interval (v : List String) (sh : Shift) (w : Option IRWindowDate)
    (ex : IRExcept) (res : Option IRRule) (r : IRRule)
    (h : tryStepWithinDay v sh w ex = some res) (hr : res = some r) : r.interval = 1 := by
  subst hr
  unfold tryStepWithinDay at h
  split at h
  · split at h
    · split at h
      · have hres := Option.some.inj h
        rcases Option.bind_eq_some.mp hres with ⟨t1, ht1, hres2⟩
        rcases Option.bind_eq_some.mp hres2 with ⟨t2, ht2, hres3⟩
        simp only [Option.pure_def, Option.some.injEq] at hres3
        rw [← hres3]
      · exact Option.noConfusion h
    · exact Option.noConfusion h
  · exact Option.noConfusion h

/-- The `every N hours between` branch copies the numeral into
`interval` unvalidated. -/
theorem tryNHoursBetween_interval (v : List String) (sh : Shift) (w : Option IRWindowDate)
    (ex : IRExcept) (res : Option IRRule) (r : IRRule)
    (h : tryNHoursBetween v sh w ex = some res) (hr : res = some r) :
    ∃ n ∈ v, isDigitsWord n = true ∧ r.interval = natOfDigits n.toList := by
  subst hr
  unfold tryNHoursBetween at h
  split at h
  · rename_i n rest
    split at h
    · rename_i hdig
      split at h
      · have hres := Option.some.inj h
        refine ⟨n, List.mem_cons_of_mem _ (List.mem_cons_self _ _), by simpa using hdig, ?_⟩
        rcases Option.bind_eq_some.mp hres with ⟨t1, ht1, hres2⟩
        rcases Option.bind_eq_some.mp hres2 with ⟨t2, ht2, hres3⟩
        simp only [Option.pure_def, Option.some.injEq] at hres3
        rw [← hres3]
      · exact Option.noConfusion h
    · exact Option.noConfusion h
  · exact Option.noConfusion h

/-- The `every hour between` branch hardcodes `interval = 1`. -/
theorem tryHourBetween_interval (v : List String) (sh : Shift) (w : Option IRWindowDate)
    (ex : IRExcept) (res : Option IRRule) (r : IRRule)
    (h : tryHourBetween v sh w ex = some res) (hr : res = some r) : r.interval = 1 := by
  subst hr
  unfold tryHourBetween at h
  split at h
  · split at h
    · have hres := Option.some.inj h
      rcases Option.bind_eq_some.mp hres with ⟨t1, ht1, hres2⟩
      rcases Option.bind_eq_some.mp hres2 with ⟨t2, ht2, hres3⟩
      simp only [Option.pure_def, Option.some.injEq] at hres3
      rw [← hres3]
    · exact Option.noConfusion h
  · exact Option.noConfusion h

/-- The generic periodic branch copies the numeral into `interval`
unvalidated. -/
theorem tryPeriodic_interval (v : List String) (sh : Shift) (w : Option IRWindowDate)
    (ex : IRExcept) (res : Option IRRule) (r : IRRule)
    (h : tryPeriodic v sh w ex = some res) (hr : res = some r) :
    ∃ n ∈ v, isDigitsWord n = true ∧ r.interval = natOfDigits n.toList := by
  subst hr
  unfold tryPeriodic at h
  split at h
  · rename_i n unit tail
    split at h
    · rename_i hcond
      refine ⟨n, List.mem_cons_of_mem _ (List.mem_cons_self _ _),
        by simpa using hcond.1, ?_⟩
      simp only [] at h
      split at h
      · have hres := Option.some.inj h
        rcases Option.bind_eq_some.mp hres with ⟨ts, hts, hres2⟩
        simp only [Option.pure_def, Option.some.injEq] at hres2
        rw [← hres2]
      · split at h
        · exact Option.noConfusion h
        · split at h
          · have hres := Option.some.inj h
            rcases Option.bind_eq_some.mp hres with ⟨ts, hts, hres2⟩
            simp only [Option.pure_def, Option.some.injEq] at hres2
            rw [← hres2]
          · have hres := Option.some.inj h
            rcases Option.bind_eq_some.mp hres with ⟨ts, hts, hres2⟩
            simp only [Option.pure_def, Option.some.injEq] at hres2
            rw [← hres2]
      · split at h
        · exact Option.noConfusion h
        · have hres := Option.some.inj h
          rcases Option.bind_eq_some.mp hres with ⟨ts, hts, hres2⟩
          simp only [Option.pure_def, Option.some.injEq] at hres2
          rw [← hres2]
      · exact Option.noConfusion h
    · exact Option.noConfusion h
  · exact Option.noConfusion h

/-- The `every weekday at` branch hardcodes `interval = 1`. -/
theorem tryWeekdayAt_interval (v : List String) (sh : Shift) (w : Option IRWindowDate)
    (ex : IRExcept) (res : Option IRRule) (r : IRRule)
    (h : tryWeekdayAt v sh w ex = some res) (hr : res = some r) : r.interval = 1 := by
  subst hr
  unfold tryWeekdayAt at h
  split at h
  · split at h
    · have hres := Option.some.inj h
      rcases Option.bind_eq_some.mp hres with ⟨ts, hts, hres2⟩
      simp only [Option.pure_def, Option.some.injEq] at hres2
      rw [← hres2]
    · exact Option.noConfusion h
  · exact Option.noConfusion h

/-- The `every day at` branch hardcodes `interval = 1`. -/
theorem tryDayAt_interval (v : List String) (sh : Shift) (w : Option IRWindowDate)
    (ex : IRExcept) (res : Option IRRule) (r : IRRule)
    (h : tryDayAt v sh w ex = some res) (hr : res = some r) : r.interval = 1 := by
  subst hr
  unfold tryDayAt at h
  split at h
  · split at h
    · have hres := Option.some.inj h
      rcases Option.bind_eq_some.mp hres with ⟨ts, hts, hres2⟩
      simp only [Option.pure_def, Option.some.injEq] at hres2
      rw [← hres2]
    · exact Option.noConfusion h
  · exact Option.noConfusion h

/-- The weekday-list branch hardcodes `interval = 1`. -/
theorem tryWeekdayList_interval (v : List String) (sh : Shift) (w : Option IRWindowDate)
    (ex : IRExcept) (res : Option IRRule) (r : IRRule)
    (h : tryWeekdayList v sh w ex = some res) (hr : res = some r) : r.interval = 1 := by
  subst hr
  unfold tryWeekdayList at h
  split at h
  · split at h
    · simp only [] at h
      split at h
      · have hres := Option.some.inj h
        rcases Option.bind_eq_some.mp hres with ⟨ts, hts, hres2⟩
        simp only [Option.pure_def, Option.some.injEq] at hres2
        rw [← hres2]
      · exact Option.noConfusion h
    · exact Option.noConfusion h
  · exact Option.noConfusion h

/-- The yearly ordinal-weekday branch hardcodes `interval = 1`. -/
theorem tryYearlyNth_interval (v : List String) (sh : Shift) (w : Option IRWindowDate)
    (ex : IRExcept) (res : Option IRRule) (r : IRRule)
    (h : tryYearlyNth v sh w ex = some res) (hr : res = some r) : r.interval = 1 := by
  subst hr
  unfold tryYearlyNth at h
  split at h
  · split at h <;> try exact Option.noConfusion h
    split at h
    · have hres := Option.some.inj h
      rcases Option.bind_eq_some.mp hres with ⟨t, ht, hres2⟩
      simp only [Option.pure_def, Option.some.injEq] at hres2
      rw [← hres2]
    · exact Option.noConfusion h
  · exact Option.noConfusion h

/-- The monthly branch hardcodes `interval = 1` in all three shapes. -/
theorem tryMonthly_interval (v : List String) (sh : Shift) (w : Option IRWindowDate)
    (ex : IRExcept) (res : Option IRRule) (r : IRRule)
    (h : tryMonthly v sh w ex = some res) (hr : res = some r) : r.interval = 1 := by
  subst hr
  unfold tryMonthly at h
  split at h
  · split at h
    · have hres := Option.some.inj h
      rcases Option.bind_eq_some.mp hres with ⟨t, ht, hres2⟩
      split at hres2
      · simp only [Option.pure_def, Option.some.injEq] at hres2
        rw [← hres2]
      · simp only [] at hres2
        split at hres2
        · simp only [Option.pure_def, Option.some.injEq] at hres2
          rw [← hres2]
        · split at hres2 <;> try exact Option.noConfusion hres2
          split at hres2 <;> try exact Option.noConfusion hres2
          simp only [Option.pure_def, Option.some.injEq] at hres2
          rw [← hres2]
    · exact Option.noConfusion h
  · exact Option.noConfusion h

/-- Down the branch chain: the parsed rule's interval is 1 unless one of
the two numeric branches copied a numeral of the rule text into it. -/
theorem orTry_chain_interval (v : List String) (sh : Shift) (w : Option IRWindowDate)
    (ex : IRExcept) (r : IRRule)
    (hp :
      (orTry (tryOneshot v sh ex) fun _ =>
       orTry (tryYearMD v sh w ex) fun _ =>
       orTry (tryStepWithinDay v sh w ex) fun _ =>
       orTry (tryNHoursBetween v sh w ex) fun _ =>
       orTry (tryHourBetween v sh w ex) fun _ =>
       orTry (tryPeriodic v sh w ex) fun _ =>
       orTry (tryWeekdayAt v sh w ex) fun _ =>
       orTry (tryDayAt v sh w ex) fun _ =>
       orTry (tryWeekdayList v sh w ex) fun _ =>
       orTry (tryYearlyNth v sh w ex) fun _ =>
       orTry (tryMonthly v sh w ex) fun _ => none) = some r)
    (hv : ∀ n ∈ v, isDigitsWord n = true → 1 ≤ natOfDigits n.toList) :
    1 ≤ r.interval := by
  rcases h1 : tryOneshot v sh ex with _ | res1 <;> rw [h1] at hp <;>
    simp only [orTry] at hp
  · rcases h2 : tryYearMD v sh w ex with _ | res2 <;> rw [h2] at hp <;>
      simp only [orTry] at hp
    · rcases h3 : tryStepWithinDay v sh w ex with _ | res3 <;> rw [h3] at hp <;>
        simp only [orTry] at hp
      · rcases h4 : tryNHoursBetween v sh w ex with _ | res4 <;> rw [h4] at hp <;>
          simp only [orTry] at hp
        · rcases h5 : tryHourBetween v sh w ex with _ | res5 <;> rw [h5] at hp <;>
            simp only [orTry] at hp
          · rcases h6 : tryPeriodic v sh w ex with _ | res6 <;> rw [h6] at hp <;>
              simp only [orTry] at hp
            · rcases h7 : tryWeekdayAt v sh w ex with _ | res7 <;> rw [h7] at hp <;>
                simp only [orTry] at hp
              · rcases h8 : tryDayAt v sh w ex with _ | res8 <;> rw [h8] at hp <;>
                  simp only [orTry] at hp
                · rcases h9 : tryWeekdayList v sh w ex with _ | res9 <;> rw [h9] at hp <;>
                    simp only [orTry] at hp
                  · rcases h10 : tryYearlyNth v sh w ex with _ | res10 <;> rw [h10] at hp <;>
                      simp only [orTry] at hp
                    · rcases h11 : tryMonthly v sh w ex with _ | res11 <;> rw [h11] at hp <;>
                        simp only [orTry] at hp
                      · exact Option.noConfusion hp
                      · have := tryMonthly_interval v sh w ex res11 r h11 hp
                        omega
                    · have := tryYearlyNth_interval v sh w ex res10 r h10 hp
                      omega
                  · have := tryWeekdayList_interval v sh w ex res9 r h9 hp
                    omega
                · have := tryDayAt_interval v sh w ex res8 r h8 hp
                  omega
              · have := tryWeekdayAt_interval v sh w ex res7 r h7 hp
                omega
            · rcases tryPeriodic_interval v sh w ex res6 r h6 hp with ⟨n, hn, hdig, hint⟩
              have := hv n hn hdig
              omega
          · have := tryHourBetween_interval v sh w ex res5 r h5 hp
            omega
        · rcases tryNHoursBetween_interval v sh w ex res4 r h4 hp with ⟨n, hn, hdig, hint⟩
          have := hv n hn hdig
          omega
      · have := tryStepWithinDay_interval v sh w ex res3 r h3 hp
        omega
    · have := tryYearMD_interval v sh w ex res2 r h2 hp
      omega
  · have := tryOneshot_interval v sh ex res1 r h1 hp
    omega

/-- **C6 (amended).** The parser puts no lower bound on `interval`: every
branch other than the two numeric ones hardcodes `interval = 1`, and the
numeric branches copy the text's numeral unvalidated. Hence `interval ≥ 1`
holds for every parsed rule exactly when every numeral token of the
normalized rule text is at least 1 (and the counterexample shows a zero
numeral yields `interval = 0`). -/
theorem c6_parse_rule_interval (text : String) (r : IRRule)
    (hp : parse_rule text = some r)
    (hd : ∀ n ∈ normWords text, isDigitsWord n = true → 1 ≤ natOfDigits n.toList) :
    1 ≤ r.interval := by
  simp only [parse_rule] at hp
  rcases hs : stripLoop ((normWords text).length + 1)
      ⟨normWords text, .none, ⟨none, none, none⟩, IRExcept.empty⟩ with _ | st <;>
    rw [hs] at hp <;>
    simp only [Option.bind_eq_bind, Option.some_bind, Option.none_bind] at hp
  · exact Option.noConfusion hp
  · have hstw : st.words ⊆ normWords text := stripLoop_subset _ _ st hs
    have hvst : ∀ n ∈ st.words, isDigitsWord n = true → 1 ≤ natOfDigits n.toList :=
      fun n hn hdig => hd n (hstw hn) hdig
    rcases hm : findMidExceptGo [] st.words with _ | ⟨pre, grp, suf⟩ <;> rw [hm] at hp <;>
      simp only [Option.bind_eq_bind, Option.some_bind, Option.none_bind,
        Option.pure_def] at hp
    · exact orTry_chain_interval st.words st.shift _ st.ex r hp hvst
    · rcases ha : applyExcept grp st.ex with _ | ex2 <;> rw [ha] at hp <;>
        simp only [Option.bind_eq_bind, Option.some_bind, Option.none_bind,
          Option.pure_def] at hp
      · exact Option.noConfusion hp
      · rcases findMidExceptGo_subset st.words [] pre grp suf hm with ⟨hpre, hsuf⟩
        have hvv : ∀ n ∈ pre ++ ["at"] ++ suf, isDigitsWord n = true →
            1 ≤ natOfDigits n.toList := by
          intro n hn hdig
          rcases List.mem_append.mp hn with hn1 | hn2
          · rcases List.mem_append.mp hn1 with hn3 | hn4
            · exact hvst n (by simpa using hpre hn3) hdig
            · exfalso
              have : n = "at" := by simpa using hn4
              subst this
              exact Bool.noConfusion hdig
          · exact hvst n (hsuf hn2) hdig
        exact orTry_chain_interval (pre ++ ["at"] ++ suf) st.shift _ ex2 r hp hvv

/-- The rule `every 2 days at 10:00` parses to. -/
def c6rule : IRRule :=
  { type := .rrule, freq := some .daily, interval := 2, times := [⟨10, 0⟩] }

/-- Witness for `c6_parse_rule_interval` at a concrete text with a nonzero
numeral. -/
theorem c6_parse_rule_interval_witness :
    parse_rule "every 2 days at 10:00" = some c6rule ∧ 1 ≤ c6rule.interval :=
  ⟨by decide,
    c6_parse_rule_interval "every 2 days at 10:00" c6rule (by decide) (by decide)⟩

/-! ### C9: public holidays without a provider -/

/-- **C9 counterexample.** `every day at 10:00 until 2020-01-01 except
public holidays` parses with `holidays.enabled`, yet with
`now = 2026-03-12T12:00:00` the engine fails with the generic
no-occurrence `RuntimeError` (the window check cuts the probe off before
the exclusion predicate ever runs), not with the unsupported-feature
error the claim promises for every holidays-enabled rule. -/
theorem c9_counterexample :
    next_occurrence 600 "every day at 10:00 until 2020-01-01 except public holidays"
      now2026 "Europe/Paris" = .exc (.runtimeError noOccMsg) ∧
    (parse_schedule "every day at 10:00 until 2020-01-01 except public holidays"
        "Europe/Paris").map (fun s => s.rules.map (fun r => r.except_.holidays.enabled)) =
      some [true] ∧
    noOccMsg ≠ holidayMsg := by
  refine ⟨by decide, by decide, by decide⟩

/-- With holidays enabled, `_excluded` never clears a candidate: it either
reports an earlier exclusion or raises the unsupported-feature error. -/
theorem excluded_holidays_never_false (dt : Int) (r : IRRule)
    (h : r.except_.holidays.enabled = true) : _excluded dt r ≠ .ok false := by
  intro hc
  unfold _excluded at hc
  split_ifs at hc <;> simp_all

/-- With holidays enabled, the only exception `_excluded` can raise is the
unsupported-feature `RuntimeError` with its fixed message. -/
theorem excluded_exc_is_holiday (dt : Int) (r : IRRule) (e : PyErr)
    (h : _excluded dt r = .exc e) : e = .runtimeError holidayMsg := by
  unfold _excluded at h
  split_ifs at h
  all_goals simp_all

/-- With holidays enabled, `probeAccept` never accepts, for any retry
continuation that never accepts. -/
theorem probeAccept_holidays_no_candidate (r : IRRule) (ws we : Option Int)
    (retry : Int → PyResult (Option Int)) (dt0 : Int)
    (h : r.except_.holidays.enabled = true)
    (hretry : ∀ p d, retry p ≠ .ok (some d)) :
    ∀ d, probeAccept r ws we retry dt0 ≠ .ok (some d) := by
  intro d hc
  simp only [probeAccept] at hc
  split_ifs at hc
  · exact hretry _ _ hc
  · simp at hc
  · rcases hex : _excluded (_apply_weekend_shift dt0 r.weekend_shift) r with b | e | _ <;>
      rw [hex] at hc <;>
      simp only [PyResult.ok_bind, PyResult.exc_bind, PyResult.hang_bind] at hc
    · rcases b with _ | _
      · exact excluded_holidays_never_false _ _ h hex
      · exact hretry _ _ (by simpa using hc)
    · exact PyResult.noConfusion hc
    · exact PyResult.noConfusion hc

/-- With holidays enabled, the probe loop never accepts a candidate. -/
theorem probeLoop_holidays_no_candidate (fuel : Nat) (rs : List RRule) (r : IRRule)
    (ws we : Option Int) (h : r.except_.holidays.enabled = true) :
    ∀ (n : Nat) (probe d : Int), probeLoop fuel rs r ws we n probe ≠ .ok (some d) := by
  intro n
  induction n with
  | zero => intro probe d hc; simp [probeLoop] at hc
  | succ n ih =>
    intro probe d hc
    rw [probeLoop] at hc
    rcases hb : rsAfter fuel rs probe false with b | e | _ <;> rw [hb] at hc <;>
      simp only [PyResult.ok_bind, PyResult.exc_bind, PyResult.hang_bind] at hc
    · rcases b with _ | base
      · simp at hc
      · simp only at hc
        rcases hst : r.step with _ | st <;> rcases hbt : r.between_time with _ | bt <;>
            simp only [hst, hbt] at hc
        · exact probeAccept_holidays_no_candidate r ws we _ base h (fun p d => ih p d) d hc
        · exact probeAccept_holidays_no_candidate r ws we _ base h (fun p d => ih p d) d hc
        · exact probeAccept_holidays_no_candidate r ws we _ base h (fun p d => ih p d) d hc
        · rcases hsb : stepBase fuel rs probe base with b2 | e2 | _ <;> rw [hsb] at hc <;>
            simp only [PyResult.ok_bind, PyResult.exc_bind, PyResult.hang_bind] at hc
          · rcases hex : _expand_step_within_day fuel b2 st bt probe with o | e3 | _ <;>
                rw [hex] at hc <;>
                simp only [PyResult.ok_bind, PyResult.exc_bind, PyResult.hang_bind] at hc
            · rcases o with _ | d2
              · exact ih _ _ hc
              · exact probeAccept_holidays_no_candidate r ws we _ d2 h (fun p d => ih p d) d hc
            · exact PyResult.noConfusion hc
            · exact PyResult.noConfusion hc
          · exact PyResult.noConfusion hc
          · exact PyResult.noConfusion hc
    · exact PyResult.noConfusion hc
    · exact PyResult.noConfusion hc

/-- **C9 (amended).** With `holidays.enabled` and no provider injected the
engine never silently produces a candidate from the rule: every accepted
probe would have to pass `_excluded`, which instead raises the dedicated
unsupported-feature `RuntimeError` (its message distinct from the
no-occurrence failure); but a rule whose probes are cut off earlier (by
the window checks or the other exclusions) fails as no-occurrence rather
than with the unsupported-feature error. -/
theorem c9_holidays_never_candidate (fuel : Nat) (r : IRRule) (now : Int)
    (h : r.except_.holidays.enabled = true) :
    (∀ d, ruleCandidate fuel r now ≠ .ok (some d)) ∧
    (∀ dt e, _excluded dt r = .exc e → e = .runtimeError holidayMsg) ∧
    holidayMsg ≠ noOccMsg := by
  refine ⟨?_, fun dt e he => excluded_exc_is_holiday dt r e he, by decide⟩
  intro d hc
  unfold ruleCandidate at hc
  rcases hty : r.type with _ | _ <;> rw [hty] at hc <;> simp only at hc
  · rcases hat : r.at_ with _ | dt <;> rw [hat] at hc <;> simp only at hc
    · exact PyResult.noConfusion hc
    · split_ifs at hc
      · rcases hex : _excluded dt r with b | e | _ <;> rw [hex] at hc <;>
          simp only [PyResult.ok_bind, PyResult.exc_bind, PyResult.hang_bind] at hc
        · rcases b with _ | _
          · exact excluded_holidays_never_false _ _ h hex
          · simp at hc
        · exact PyResult.noConfusion hc
        · exact PyResult.noConfusion hc
      · simp at hc
  · rcases hbld : _build_rruleset r now (_window_datetimes r.window_date).1 with rs | e | _ <;>
        rw [hbld] at hc <;>
        simp only [PyResult.ok_bind, PyResult.exc_bind, PyResult.hang_bind] at hc
    · exact probeLoop_holidays_no_candidate fuel rs r _ _ h 500 now d hc
    · exact PyResult.noConfusion hc
    · exact PyResult.noConfusion hc

/-- Witness for `c9_holidays_never_candidate` at the counterexample's
holidays-enabled rule. -/
theorem c9_holidays_never_candidate_witness :
    ({ type := .rrule, freq := some .daily, interval := 1, times := [⟨10, 0⟩],
       except_ := ⟨[], [], ⟨true, none⟩⟩ : IRRule}).except_.holidays.enabled = true ∧
    ((∀ d, ruleCandidate 600
        { type := .rrule, freq := some .daily, interval := 1, times := [⟨10, 0⟩],
          except_ := ⟨[], [], ⟨true, none⟩⟩ } now2026 ≠ .ok (some d)) ∧
      (∀ dt e, _excluded dt
          { type := .rrule, freq := some .daily, interval := 1, times := [⟨10, 0⟩],
            except_ := ⟨[], [], ⟨true, none⟩⟩ } = .exc e → e = .runtimeError holidayMsg) ∧
      holidayMsg ≠ noOccMsg) :=
  ⟨rfl, c9_holidays_never_candidate 600 _ now2026 rfl⟩

/-! ### C5: `every year on 02-30 at 10:00` dies with a year-range error

February never has 30 days; `_month_candidates` therefore returns no
candidate for any year in `date()`'s 1..9999 range, so `_after_yearly`'s
`while True` year scan runs past the horizon until year 10000, where
`_last_day_of_month` builds `date(10000, 3, 1)` and CPython raises
`ValueError: year 10000 is out of range`. The 500-iteration probe budget
is never consulted: the whole scan happens inside the first `rruleset
.after` call, and the error — not the claimed bounded no-next-occurrence
failure — propagates out of `next_occurrence`. The lemmas prove
`monthLength y 2 ≤ 29` for every year by 400-year periodicity of the
Gregorian calendar plus a finite check, then walk the scan from 2026 to
its death at year 10000. -/

/-- The civil-to-day-number conversion shifts by one 400-year era. -/
theorem daysFromCivil_add400 (y m d : Int) :
    daysFromCivil (y + 400) m d = daysFromCivil y m d + 146097 := by
  simp only [daysFromCivil]
  split_ifs <;> omega

/-- The day component of the day-number-to-civil conversion is
146097-periodic. -/
theorem civilFromDays_day_add (z : Int) :
    (civilFromDays (z + 146097)).day = (civilFromDays z).day := by
  simp only [civilFromDays]
  generalize hb : (z + 719468) / 146097 = b
  have hg : (z + 146097 + 719468) / 146097 = b + 1 := by omega
  rw [hg]
  have hdoe : z + 146097 + 719468 - (b + 1) * 146097 = z + 719468 - b * 146097 := by ring
  rw [hdoe]

/-- February's length is 400-year periodic. -/
theorem monthLength_feb_add400 (y : Int) :
    monthLength (y + 400) 2 = monthLength y 2 := by
  simp only [monthLength, show ¬ ((2 : Int) = 12) by decide, if_false,
    show (2 : Int) + 1 = 3 from rfl]
  rw [daysFromCivil_add400]
  rw [show daysFromCivil y 3 1 + 146097 - 1 = (daysFromCivil y 3 1 - 1) + 146097 by ring]
  exact civilFromDays_day_add _

/-- February's length is periodic under any whole number of 400-year
eras. -/
theorem monthLength_feb_shift (k : Int) (x : Int) :
    monthLength (x + 400 * k) 2 = monthLength x 2 := by
  induction k using Int.induction_on with
  | hz => simp
  | hp n ih =>
    rw [show x + 400 * ((n : Int) + 1) = (x + 400 * (n : Int)) + 400 by ring,
      monthLength_feb_add400, ih]
  | hn n ih =>
    have h := monthLength_feb_add400 (x + 400 * (-(n : Int) - 1))
    rw [show x + 400 * (-(n : Int) - 1) + 400 = x + 400 * (-(n : Int)) by ring] at h
    exact h.symm.trans ih

set_option maxRecDepth 8000 in
/-- February's length in the base era, checked exhaustively. -/
theorem lastDay_feb_base :
    ((List.range 400).all (fun n => decide (monthLength (n : Int) 2 ≤ 29))) = true := by
  decide

/-- February never has 30 days, in any year. -/
theorem lastDay_feb_le (y : Int) : monthLength y 2 ≤ 29 := by
  have hy : y = (y % 400) + 400 * (y / 400) := by omega
  have hsh := monthLength_feb_shift (y / 400) (y % 400)
  have hb := lastDay_feb_base
  rw [List.all_eq_true] at hb
  have hmem : (y % 400).toNat ∈ List.range 400 := by
    rw [List.mem_range]
    omega
  have hbase := hb _ hmem
  simp only [decide_eq_true_eq] at hbase
  rw [Int.toNat_of_nonneg (by omega : (0 : Int) ≤ y % 400)] at hbase
  rw [hy, hsh]
  exact hbase

/-- The IR rule `parse_rule` produces for `every year on 02-30 at 10:00`. -/
def c5rule : IRRule :=
  { type := .rrule, freq := some .yearly, interval := 1,
    bymonth := some [2], bymonthday := some [30], times := [⟨10, 0⟩] }

/-- The rrule `_build_rruleset` constructs for `c5rule` at `now2026`. -/
def c5rr : RRule :=
  ⟨.yearly, 1, mkDT 2026 3 12 10 0, some [2], none, some [30], none, some 10, some 0⟩

/-- The failing text parses to `c5rule` (the parser validates neither the
month nor the day of an `every year on MM-DD` rule). -/
theorem c5_parse :
    parse_schedule "every year on 02-30 at 10:00" "Europe/Paris" =
      some ⟨"Europe/Paris", [c5rule]⟩ := by
  decide

/-- The engine builds exactly `c5rr` for `c5rule`. -/
theorem c5_build :
    _build_rruleset c5rule now2026 (_window_datetimes c5rule.window_date).1 =
      .ok [c5rr] := by
  decide

/-- For years in `date()`'s range, no February supplies day 30: the month
scan of the rule is empty. -/
theorem c5_month_empty (y : Int) (h1 : 1 ≤ y) (h2 : y ≤ 9999) :
    _month_candidates c5rr y 2 = .ok [] := by
  have h := lastDay_feb_le y
  have hld : _last_day_of_month y 2 = .ok (monthLength y 2) := by
    simp only [_last_day_of_month, show ((2 : Int) = 12) = False by simp, if_false]
    rw [if_neg (by omega), if_neg (by omega)]
  unfold _month_candidates
  rw [if_neg (by decide), if_neg (by decide), if_pos (by decide)]
  rw [show c5rr.bymonthday.getD [] = [30] from rfl]
  rw [hld]
  simp only [PyResult.ok_bind, List.foldlM_cons, List.foldlM_nil]
  rw [if_neg (by decide), if_neg (by omega)]
  rfl

/-- Every in-range year scan of the rule is empty. -/
theorem c5_year_empty (y : Int) (h1 : 1 ≤ y) (h2 : y ≤ 9999) :
    _year_candidates c5rr y = .ok [] := by
  have hm := c5_month_empty y h1 h2
  simp only [_year_candidates, collectMonthCandidates,
    show (if truthy c5rr.bymonth then c5rr.bymonth.getD []
      else [(dtCivil c5rr.dtstart).month]) = [2] from rfl, hm,
    PyResult.ok_bind]
  rfl

/-- At year 10000 the scan dies: `_last_day_of_month` builds
`date(10000, 3, 1)` and the year check raises. -/
theorem c5_year_err :
    _year_candidates c5rr 10000 = .exc (.valueError (yearRangeMsg 10000)) := by
  decide

/-- The year scan of the rule walks every year from its anchor up to 9999
finding nothing, then raises the year-range `ValueError` at year 10000. -/
theorem c5_year_scan : ∀ (j f k : Nat) (t : Int), k + j = 7974 → j < f →
    afterYearlyLoop f c5rr t false k = .exc (.valueError (yearRangeMsg 10000)) := by
  intro j
  induction j with
  | zero =>
    intro f k t hk hf
    rcases f with _ | f
    · omega
    have hk0 : k = 7974 := by omega
    subst hk0
    rw [afterYearlyLoop]
    rw [show (dtCivil c5rr.dtstart).year + (c5rr.interval : Int) * ((7974 : Nat) : Int) =
      10000 from by decide]
    rw [c5_year_err]
    rfl
  | succ j ih =>
    intro f k t hk hf
    rcases f with _ | f
    · omega
    rw [afterYearlyLoop]
    rw [show (dtCivil c5rr.dtstart).year + (c5rr.interval : Int) * (k : Int) =
      2026 + (k : Int) from by
        rw [show (dtCivil c5rr.dtstart).year = 2026 from by decide,
          show (c5rr.interval : Int) = 1 from rfl]
        ring]
    rw [c5_year_empty (2026 + (k : Int)) (by omega) (by omega)]
    exact ih f (k + 1) t (by omega) (by omega)

/-- The ruleset's `after` for the rule raises the year-range error. -/
theorem c5_rsAfter (fuel : Nat) (t : Int) (hf : 7974 < fuel) :
    rsAfter fuel [c5rr] t false = .exc (.valueError (yearRangeMsg 10000)) := by
  unfold rsAfter rsAfterList
  rw [show rruleAfter fuel c5rr t false = afterYearlyLoop fuel c5rr t false 0 from rfl]
  rw [c5_year_scan 7974 fuel 0 t (by omega) hf]
  rfl

/-- A probe iteration whose ruleset scan raises propagates the error out
of the probe loop. -/
theorem probeLoop_exc_step (fuel : Nat) (rs : List RRule) (r : IRRule)
    (ws we : Option Int) (n : Nat) (probe : Int) (e : PyErr)
    (h : rsAfter fuel rs probe false = .exc e) :
    probeLoop fuel rs r ws we (n + 1) probe = .exc e := by
  rw [probeLoop, h]
  rfl

/-- The per-rule probe propagates the year-range error. -/
theorem c5_ruleCandidate (fuel : Nat) (hf : 7974 < fuel) :
    ruleCandidate fuel c5rule now2026 = .exc (.valueError (yearRangeMsg 10000)) := by
  have hb := c5_build
  simp only [ruleCandidate]
  simp only [c5rule] at hb ⊢
  rw [hb]
  simp only [PyResult.ok_bind]
  rw [show (500 : Nat) = 499 + 1 from rfl]
  exact probeLoop_exc_step fuel [c5rr] _ _ _ 499 now2026 _ (c5_rsAfter fuel now2026 hf)

/-- **C5 (divergence at the failing input).** For
`every year on 02-30 at 10:00` with `now = 2026-03-12T12:00:00` in
`Europe/Paris`, the claimed bounded no-next-occurrence failure never
happens: the engine's 500-iteration probe budget is never consulted,
because `rrule._after_yearly` scans 7,974 fruitless years inside the very
first ruleset query (February never has a 30th) and then dies at year
10000 with CPython's `ValueError: year 10000 is out of range`, which
`next_occurrence` propagates instead of the no-occurrence error. -/
theorem c5_feb30_year_error (fuel : Nat) (hf : 7974 < fuel) :
    next_occurrence fuel "every year on 02-30 at 10:00" now2026 "Europe/Paris" =
      .exc (.valueError (yearRangeMsg 10000)) := by
  unfold next_occurrence
  rw [c5_parse]
  simp [next_occurrence_sched, collectCandidates, c5_ruleCandidate fuel hf]

/-- Witness for `c5_feb30_year_error` at a concrete budget. -/
theorem c5_feb30_year_error_witness :
    7974 < 8000 ∧
    next_occurrence 8000 "every year on 02-30 at 10:00" now2026 "Europe/Paris" =
      .exc (.valueError (yearRangeMsg 10000)) :=
  ⟨by decide, c5_feb30_year_error 8000 (by decide)⟩

/-! ### C2: composition is the minimum over per-rule candidates -/

/-- `PyResult.isOk` discriminator. -/
def resultOk {α : Type} : PyResult α → Bool
  | .ok _ => true
  | _ => false

/-- The per-rule candidate as an `Option`, defined only on non-raising
non-hanging rules. -/
def okCandidate (fuel : Nat) (now : Int) (r : IRRule) : Option Int :=
  match ruleCandidate fuel r now with
  | .ok o => o
  | _ => none

/-- The fold Python's `min` performs lands inside the list. -/
theorem foldlMin_mem (l : List Int) : ∀ c : Int, l.foldl min c ∈ c :: l := by
  induction l with
  | nil =>
    intro c
    simp
  | cons x xs ih =>
    intro c
    simp only [List.foldl_cons]
    have h := ih (min c x)
    rcases List.mem_cons.mp h with h | h
    · rcases min_choice c x with hm | hm
      · rw [h, hm]
        simp
      · rw [h, hm]
        simp
    · simp only [List.mem_cons]
      right; right; exact h

/-- The fold Python's `min` performs bounds every element. -/
theorem foldlMin_le (l : List Int) : ∀ c x : Int, x ∈ c :: l → l.foldl min c ≤ x := by
  induction l with
  | nil =>
    intro c x hx
    simp at hx
    simp [hx]
  | cons y ys ih =>
    intro c x hx
    simp only [List.foldl_cons]
    have hhead : ys.foldl min (min c y) ≤ min c y :=
      ih (min c y) (min c y) (List.mem_cons_self _ _)
    rcases List.mem_cons.mp hx with h | h
    · subst h
      exact le_trans hhead (min_le_left _ _)
    · rcases List.mem_cons.mp h with h | h
      · subst h
        exact le_trans hhead (min_le_right _ _)
      · exact ih (min c y) x (List.mem_cons_of_mem _ h)

/-- `okCandidate` carries exactly the accepted candidates. -/
theorem okCandidate_eq_some (fuel : Nat) (now : Int) (r : IRRule) (d : Int) :
    okCandidate fuel now r = some d ↔ ruleCandidate fuel r now = .ok (some d) := by
  unfold okCandidate
  rcases h : ruleCandidate fuel r now with o | e | _ <;> simp

/-- When every rule's probe returns, the candidate-gathering loop collects
exactly the accepted per-rule candidates, in rule order. -/
theorem collectCandidates_ok (fuel : Nat) (now : Int) (rules : List IRRule)
    (h : ∀ r ∈ rules, resultOk (ruleCandidate fuel r now) = true) :
    collectCandidates fuel now rules = .ok (rules.filterMap (okCandidate fuel now)) := by
  induction rules with
  | nil => rfl
  | cons r rest ih =>
    have hr := h r (List.mem_cons_self r rest)
    have hrest := ih (fun r' hr' => h r' (List.mem_cons_of_mem _ hr'))
    rw [collectCandidates, hrest]
    rcases hc : ruleCandidate fuel r now with o | e | _
    · simp only [PyResult.ok_bind, List.filterMap_cons]
      cases o <;> simp [okCandidate, hc]
    · rw [hc] at hr
      simp [resultOk] at hr
    · rw [hc] at hr
      simp [resultOk] at hr

/-- **C2.** For every composed schedule and every `now`, provided each
rule's probe returns (no exception, no hanging scan): the engine's answer
is an instant `d` exactly when some rule accepted `d` and no rule accepted
anything earlier — the minimum over the per-rule candidates, rules that
yield no candidate being dropped; and the engine fails with the
no-next-occurrence error exactly when every rule yields no candidate. -/
theorem c2_next_occurrence_min (fuel : Nat) (sched : IRSchedule) (now : Int)
    (h : ∀ r ∈ sched.rules, resultOk (ruleCandidate fuel r now) = true) :
    (∀ d : Int, next_occurrence_sched fuel sched now = .ok d ↔
      ((∃ r ∈ sched.rules, ruleCandidate fuel r now = .ok (some d)) ∧
       (∀ r ∈ sched.rules, ∀ d' : Int, ruleCandidate fuel r now = .ok (some d') → d ≤ d'))) ∧
    (next_occurrence_sched fuel sched now = .exc (.runtimeError noOccMsg) ↔
      ∀ r ∈ sched.rules, ruleCandidate fuel r now = .ok none) := by
  have hcol := collectCandidates_ok fuel now sched.rules h
  have hmem : ∀ d : Int, d ∈ sched.rules.filterMap (okCandidate fuel now) ↔
      ∃ r ∈ sched.rules, ruleCandidate fuel r now = .ok (some d) := by
    intro d
    rw [List.mem_filterMap]
    constructor
    · rintro ⟨r, hr, hok⟩
      exact ⟨r, hr, (okCandidate_eq_some fuel now r d).mp hok⟩
    · rintro ⟨r, hr, hok⟩
      exact ⟨r, hr, (okCandidate_eq_some fuel now r d).mpr hok⟩
  unfold next_occurrence_sched
  rw [hcol]
  simp only [PyResult.ok_bind]
  rcases hL : sched.rules.filterMap (okCandidate fuel now) with _ | ⟨c, rest⟩
  · constructor
    · intro d
      constructor
      · intro hc
        exact PyResult.noConfusion hc
      · rintro ⟨⟨r, hr, hok⟩, _⟩
        have : d ∈ sched.rules.filterMap (okCandidate fuel now) :=
          (hmem d).mpr ⟨r, hr, hok⟩
        rw [hL] at this
        exact absurd this (List.not_mem_nil d)
    · constructor
      · intro _ r hr
        have hrok := h r hr
        have hnil := List.filterMap_eq_nil_iff.mp hL r hr
        rcases hc : ruleCandidate fuel r now with o | e | _
        · rcases o with _ | d'
          · rfl
          · exfalso
            have : okCandidate fuel now r = some d' :=
              (okCandidate_eq_some fuel now r d').mpr hc
            rw [this] at hnil
            exact Option.noConfusion hnil
        · rw [hc] at hrok
          simp [resultOk] at hrok
        · rw [hc] at hrok
          simp [resultOk] at hrok
      · intro _
        rfl
  · have hmm : rest.foldl min c ∈ c :: rest := foldlMin_mem rest c
    have hml : ∀ x ∈ c :: rest, rest.foldl min c ≤ x := fun x hx => foldlMin_le rest c x hx
    rw [← hL] at hmm hml
    constructor
    · intro d
      constructor
      · intro hc
        have hd : d = rest.foldl min c := by
          have := PyResult.ok.inj hc
          exact this.symm
        subst hd
        refine ⟨(hmem _).mp hmm, ?_⟩
        intro r hr d' hok
        exact hml d' ((hmem d').mpr ⟨r, hr, hok⟩)
      · rintro ⟨hex, hall⟩
        have hdm : d ∈ sched.rules.filterMap (okCandidate fuel now) := (hmem d).mpr hex
        have h1 : rest.foldl min c ≤ d := hml d hdm
        have h2 : d ≤ rest.foldl min c := by
          rcases (hmem _).mp hmm with ⟨r, hr, hok⟩
          exact hall r hr _ hok
        have : d = rest.foldl min c := le_antisymm h2 h1
        rw [this]
    · constructor
      · intro hc
        exact absurd hc (by simp)
      · intro hall
        exfalso
        rcases (hmem _).mp hmm with ⟨r, hr, hok⟩
        have := hall r hr
        rw [this] at hok
        exact Option.noConfusion (PyResult.ok.inj hok)

/-- A concrete two-rule schedule (`every weekday at 09:00, and every
saturday at 10:30`) for the composition witness. -/
def c2sched : IRSchedule :=
  ⟨"Europe/Paris",
    [{ type := .rrule, freq := some .daily, interval := 1,
       byweekday := some [0, 1, 2, 3, 4], times := [⟨9, 0⟩] },
     { type := .rrule, freq := some .weekly, interval := 1,
       byweekday := some [5], times := [⟨10, 30⟩] }]⟩

/-- Witness for `c2_next_occurrence_min` at `c2sched` and `now2026`. -/
theorem c2_next_occurrence_min_witness :
    (∀ r ∈ c2sched.rules, resultOk (ruleCandidate 600 r now2026) = true) ∧
    ((∀ d : Int, next_occurrence_sched 600 c2sched now2026 = .ok d ↔
      ((∃ r ∈ c2sched.rules, ruleCandidate 600 r now2026 = .ok (some d)) ∧
       (∀ r ∈ c2sched.rules, ∀ d' : Int,
          ruleCandidate 600 r now2026 = .ok (some d') → d ≤ d'))) ∧
     (next_occurrence_sched 600 c2sched now2026 = .exc (.runtimeError noOccMsg) ↔
      ∀ r ∈ c2sched.rules, ruleCandidate 600 r now2026 = .ok none)) :=
  ⟨by decide, c2_next_occurrence_min 600 c2sched now2026 (by decide)⟩

/-! ### C3: the engine's answer is strictly after `now`

Every expander, asked for a candidate strictly after a target, returns one
strictly after it; the weekend shift only moves forward; the probe only
moves forward and starts at `now`; so every accepted candidate, and hence
the minimum, is strictly after `now`. -/

/-- The linear advance loop exits strictly past its target (exclusive
mode). -/
theorem advancePast_gt (f : Nat) : ∀ s t c r : Int,
    advancePast f s t false c = .ok r → t < r := by
  induction f with
  | zero =>
    intro s t c r h
    exact PyResult.noConfusion h
  | succ f ih =>
    intro s t c r h
    simp only [advancePast] at h
    split at h
    · exact ih s t (c + s) r h
    · rename_i hcond
      simp only [eq_self_iff_true, true_and, not_or, not_lt] at hcond
      have := PyResult.ok.inj h
      omega

/-- The daily weekday filter only moves forward (the step is
non-negative). -/
theorem dailyWeekdayFilter_ge (f : Nat) : ∀ (s : Int) (wd : Option (List Int)) (c r : Int),
    0 ≤ s → dailyWeekdayFilter f s wd c = .ok r → c ≤ r := by
  induction f with
  | zero =>
    intro s wd c r _ h
    exact PyResult.noConfusion h
  | succ f ih =>
    intro s wd c r hs h
    simp only [dailyWeekdayFilter] at h
    split at h
    · have := PyResult.ok.inj h
      omega
    · have := ih s wd (c + s) r hs h
      omega

/-- A candidate-list scan in exclusive mode yields a candidate strictly
after the target. -/
theorem firstAfter_gt (t : Int) : ∀ (l : List Int) (c : Int),
    firstAfter t false l = some c → t < c := by
  intro l
  induction l with
  | nil =>
    intro c h
    exact Option.noConfusion h
  | cons x xs ih =>
    intro c h
    simp only [firstAfter] at h
    split at h
    · rename_i hcond
      have := Option.some.inj h
      rcases hcond with hlt | ⟨hfalse, _⟩
      · omega
      · exact Bool.noConfusion hfalse
    · exact ih c h

/-- The weekly scan yields a candidate strictly after the target. -/
theorem afterWeeklyLoop_gt (f : Nat) : ∀ (rr : RRule) (t : Int) (k : Nat) (c : Int),
    afterWeeklyLoop f rr t false k = .ok c → t < c := by
  induction f with
  | zero =>
    intro rr t k c h
    exact PyResult.noConfusion h
  | succ f ih =>
    intro rr t k c h
    rw [afterWeeklyLoop] at h
    split at h
    · rename_i hfa
      have := PyResult.ok.inj h
      subst this
      exact firstAfter_gt t _ _ hfa
    · exact ih rr t (k + 1) c h

/-- The monthly scan yields a candidate strictly after the target. -/
theorem afterMonthlyLoop_gt (f : Nat) : ∀ (rr : RRule) (t : Int) (k : Nat) (c : Int),
    afterMonthlyLoop f rr t false k = .ok c → t < c := by
  induction f with
  | zero =>
    intro rr t k c h
    exact PyResult.noConfusion h
  | succ f ih =>
    intro rr t k c h
    rw [afterMonthlyLoop] at h
    rcases hmc : _month_candidates rr
        (addMonths (dtCivil rr.dtstart).year (dtCivil rr.dtstart).month
          ((rr.interval : Int) * (k : Int))).1
        (addMonths (dtCivil rr.dtstart).year (dtCivil rr.dtstart).month
          ((rr.interval : Int) * (k : Int))).2 with cands | e | _ <;>
      rw [hmc] at h <;>
      simp only [PyResult.ok_bind, PyResult.exc_bind, PyResult.hang_bind] at h
    · split at h
      · rename_i hfa
        have := PyResult.ok.inj h
        subst this
        exact firstAfter_gt t _ _ hfa
      · exact ih rr t (k + 1) c h
    · exact PyResult.noConfusion h
    · exact PyResult.noConfusion h

/-- The yearly scan yields a candidate strictly after the target. -/
theorem afterYearlyLoop_gt (f : Nat) : ∀ (rr : RRule) (t : Int) (k : Nat) (c : Int),
    afterYearlyLoop f rr t false k = .ok c → t < c := by
  induction f with
  | zero =>
    intro rr t k c h
    exact PyResult.noConfusion h
  | succ f ih =>
    intro rr t k c h
    rw [afterYearlyLoop] at h
    rcases hyc : _year_candidates rr
        ((dtCivil rr.dtstart).year + (rr.interval : Int) * (k : Int)) with cands | e | _ <;>
      rw [hyc] at h <;>
      simp only [PyResult.ok_bind, PyResult.exc_bind, PyResult.hang_bind] at h
    · split at h
      · rename_i hfa
        have := PyResult.ok.inj h
        subst this
        exact firstAfter_gt t _ _ hfa
      · exact ih rr t (k + 1) c h
    · exact PyResult.noConfusion h
    · exact PyResult.noConfusion h

/-- `rrule.after` in exclusive mode yields a candidate strictly after the
target, for every frequency. -/
theorem rruleAfter_gt (fuel : Nat) (rr : RRule) (t c : Int)
    (h : rruleAfter fuel rr t false = .ok c) : t < c := by
  unfold rruleAfter at h
  rcases hf : rr.freq <;> rw [hf] at h
  · exact advancePast_gt fuel _ t _ c h
  · exact advancePast_gt fuel _ t _ c h
  · unfold _after_daily at h
    rcases ha : advancePast fuel ((rr.interval : Int) * 86400) t false rr.dtstart
        with c0 | e | _ <;> rw [ha] at h <;>
      simp only [PyResult.ok_bind, PyResult.exc_bind, PyResult.hang_bind] at h
    · have h1 := advancePast_gt fuel _ t _ c0 ha
      have h2 := dailyWeekdayFilter_ge fuel _ rr.byweekday c0 c (by positivity) h
      omega
    · exact PyResult.noConfusion h
    · exact PyResult.noConfusion h
  · exact afterWeeklyLoop_gt fuel rr t 0 c h
  · exact afterMonthlyLoop_gt fuel rr t 0 c h
  · exact afterYearlyLoop_gt fuel rr t 0 c h

/-- Every entry of the ruleset scan's candidate list is strictly after the
target. -/
theorem rsAfterList_gt (fuel : Nat) : ∀ (rules : List RRule) (t : Int) (cs : List Int),
    rsAfterList fuel rules t false = .ok cs → ∀ x ∈ cs, t < x := by
  intro rules
  induction rules with
  | nil =>
    intro t cs h x hx
    rw [rsAfterList] at h
    have := PyResult.ok.inj h
    subst this
    exact absurd hx (List.not_mem_nil x)
  | cons r rest ih =>
    intro t cs h x hx
    rw [rsAfterList] at h
    rcases ha : rruleAfter fuel r t false with c | e | _ <;> rw [ha] at h <;>
      simp only [PyResult.ok_bind, PyResult.exc_bind, PyResult.hang_bind] at h
    · rcases hb : rsAfterList fuel rest t false with cs' | e | _ <;> rw [hb] at h <;>
        simp only [PyResult.ok_bind, PyResult.exc_bind, PyResult.hang_bind] at h
      · have := PyResult.ok.inj h
        subst this
        rcases List.mem_cons.mp hx with hx | hx
        · subst hx
          exact rruleAfter_gt fuel r t x ha
        · exact ih t cs' hb x hx
      · exact PyResult.noConfusion h
      · exact PyResult.noConfusion h
    · exact PyResult.noConfusion h
    · exact PyResult.noConfusion h

/-- `rruleset.after` in exclusive mode yields a candidate strictly after
its cursor. -/
theorem rsAfter_gt (fuel : Nat) (rules : List RRule) (t c : Int)
    (h : rsAfter fuel rules t false = .ok (some c)) : t < c := by
  unfold rsAfter at h
  rcases hl : rsAfterList fuel rules t false with cs | e | _ <;> rw [hl] at h <;>
    simp only [PyResult.ok_bind, PyResult.exc_bind, PyResult.hang_bind] at h
  · rcases cs with _ | ⟨c0, rest⟩
    · simp at h
    · simp only at h
      have := Option.some.inj (PyResult.ok.inj h)
      subst this
      have hmem := foldlMin_mem rest c0
      exact rsAfterList_gt fuel rules t _ hl _ hmem
  · exact PyResult.noConfusion h
  · exact PyResult.noConfusion h

/-- The within-day slot loop returns a slot strictly after `after`. -/
theorem expandLoop_gt (f : Nat) : ∀ (s e a cur c : Int),
    expandLoop f s e a cur = .ok (some c) → a < c := by
  induction f with
  | zero =>
    intro s e a cur c h
    exact PyResult.noConfusion h
  | succ f ih =>
    intro s e a cur c h
    simp only [expandLoop] at h
    split at h
    · split at h
      · have := Option.some.inj (PyResult.ok.inj h)
        subst this
        assumption
      · exact ih s e a (cur + s) c h
    · simp at h

/-- `_expand_step_within_day` returns a slot strictly after `after_dt`. -/
theorem expand_step_gt (f : Nat) (b : Int) (st : IRStep) (bt : IRBetweenTime) (a c : Int)
    (h : _expand_step_within_day f b st bt a = .ok (some c)) : a < c := by
  unfold _expand_step_within_day at h
  rcases hs : _step_to_timedelta st with s | e | _ <;> rw [hs] at h <;>
    simp only [PyResult.ok_bind, PyResult.exc_bind, PyResult.hang_bind] at h
  · exact expandLoop_gt f s _ a _ c h
  · exact PyResult.noConfusion h
  · exact PyResult.noConfusion h

/-- The advance loops never move backwards. -/
theorem advanceWhile_ge (p : Int → Bool) : ∀ (f : Nat) (z : Int), z ≤ advanceWhile p f z := by
  intro f
  induction f with
  | zero =>
    intro z
    exact le_refl z
  | succ f ih =>
    intro z
    rw [advanceWhile]
    split
    · have := ih (z + 1)
      omega
    · exact le_refl z

/-- The weekend shift never moves backwards. -/
theorem apply_weekend_shift_ge (dt : Int) (mode : Shift) :
    dt ≤ _apply_weekend_shift dt mode := by
  rcases mode with _ | _ | _
  · exact le_refl dt
  · simp only [_apply_weekend_shift]
    split
    · have h : dtDay dt ≤ nextMondayDay (dtDay dt) := advanceWhile_ge _ 7 _
      simp only [dtSetDay, dayStart, dtDay, dtSecOfDay] at *
      omega
    · exact le_refl dt
  · simp only [_apply_weekend_shift]
    split
    · have h : dtDay dt ≤ next_business_day (dtDay dt) := advanceWhile_ge _ 7 _
      simp only [dtSetDay, dayStart, dtDay, dtSecOfDay] at *
      omega
    · exact le_refl dt

/-- The same-day re-probe keeps the candidate's day at or after the
probe's day. -/
theorem stepBase_day_ge (fuel : Nat) (rs : List RRule) (probe base dt' : Int)
    (hb : probe < base) (h : stepBase fuel rs probe base = .ok dt') :
    dtDay probe ≤ dtDay dt' := by
  have hbase : dtDay probe ≤ dtDay base := by
    simp only [dtDay]
    omega
  simp only [stepBase, PyResult.pure_eq_ok] at h
  split at h
  · rcases ha : rsAfter fuel rs (dayStart (dtDay probe) - 1) false with o | e | _ <;>
      rw [ha] at h <;>
      simp only [PyResult.ok_bind, PyResult.exc_bind, PyResult.hang_bind] at h
    · rcases o with _ | b2 <;> simp only [] at h
      · have := PyResult.ok.inj h
        subst this
        exact hbase
      · have hd := PyResult.ok.inj h
        subst hd
        split
        · rename_i hday
          omega
        · exact hbase
    · exact PyResult.noConfusion h
    · exact PyResult.noConfusion h
  · have := PyResult.ok.inj h
    subst this
    exact hbase

/-- `probeAccept` accepts only instants strictly after `now`, given that
every retry from a probe at or after `now` does. -/
theorem probeAccept_now_lt (r : IRRule) (ws we : Option Int)
    (retry : Int → PyResult (Option Int)) (now dt0 d : Int)
    (h0 : now < dt0)
    (hret : ∀ p, now ≤ p → ∀ d', retry p = .ok (some d') → now < d')
    (hc : probeAccept r ws we retry dt0 = .ok (some d)) : now < d := by
  have hshift : dt0 ≤ _apply_weekend_shift dt0 r.weekend_shift :=
    apply_weekend_shift_ge dt0 r.weekend_shift
  simp only [probeAccept] at hc
  split_ifs at hc with h1 h2
  · rcases hws : ws with _ | w
    · rw [hws] at h1
      exact Bool.noConfusion h1
    · rw [hws] at h1 hc
      simp only [decide_eq_true_eq] at h1
      simp only [Option.getD_some] at hc
      exact hret (w - 1) (by omega) d hc
  · exact Option.noConfusion (PyResult.ok.inj hc)
  · rcases hex : _excluded (_apply_weekend_shift dt0 r.weekend_shift) r with b | e | _ <;>
      rw [hex] at hc <;>
      simp only [PyResult.ok_bind, PyResult.exc_bind, PyResult.hang_bind] at hc
    · rcases b with _ | _ <;> simp only [Bool.false_eq_true, if_false, if_true] at hc
      · have := Option.some.inj (PyResult.ok.inj hc)
        subst this
        omega
      · exact hret _ (by omega) d hc
    · exact PyResult.noConfusion hc
    · exact PyResult.noConfusion hc

/-- The probe loop accepts only instants strictly after `now` when started
at or after `now`. -/
theorem probeLoop_now_lt (fuel : Nat) (rs : List RRule) (r : IRRule) (ws we : Option Int)
    (now : Int) : ∀ (n : Nat) (probe d : Int), now ≤ probe →
    probeLoop fuel rs r ws we n probe = .ok (some d) → now < d := by
  intro n
  induction n with
  | zero =>
    intro probe d _ hc
    simp [probeLoop] at hc
  | succ n ih =>
    intro probe d hp hc
    rw [probeLoop] at hc
    rcases hb : rsAfter fuel rs probe false with b | e | _ <;> rw [hb] at hc <;>
      simp only [PyResult.ok_bind, PyResult.exc_bind, PyResult.hang_bind] at hc
    · rcases b with _ | base
      · simp at hc
      · simp only at hc
        have hbase : probe < base := rsAfter_gt fuel rs probe base hb
        rcases hst : r.step with _ | st <;> rcases hbt : r.between_time with _ | bt <;>
            simp only [hst, hbt] at hc
        · exact probeAccept_now_lt r ws we _ now base d (by omega)
            (fun p hp' d' hc' => ih p d' hp' hc') hc
        · exact probeAccept_now_lt r ws we _ now base d (by omega)
            (fun p hp' d' hc' => ih p d' hp' hc') hc
        · exact probeAccept_now_lt r ws we _ now base d (by omega)
            (fun p hp' d' hc' => ih p d' hp' hc') hc
        · rcases hsb : stepBase fuel rs probe base with dt' | e2 | _ <;> rw [hsb] at hc <;>
            simp only [PyResult.ok_bind, PyResult.exc_bind, PyResult.hang_bind] at hc
          · rcases hex : _expand_step_within_day fuel dt' st bt probe with o | e3 | _ <;>
                rw [hex] at hc <;>
                simp only [PyResult.ok_bind, PyResult.exc_bind, PyResult.hang_bind] at hc
            · rcases o with _ | d2
              · have hday := stepBase_day_ge fuel rs probe base dt' hbase hsb
                refine ih _ d ?_ hc
                simp only [dtDay, dayStart] at *
                omega
              · have hd2 : probe < d2 := expand_step_gt fuel dt' st bt probe d2 hex
                exact probeAccept_now_lt r ws we _ now d2 d (by omega)
                  (fun p hp' d' hc' => ih p d' hp' hc') hc
            · exact PyResult.noConfusion hc
            · exact PyResult.noConfusion hc
          · exact PyResult.noConfusion hc
          · exact PyResult.noConfusion hc
    · exact PyResult.noConfusion hc
    · exact PyResult.noConfusion hc

/-- A rule's accepted candidate is strictly after `now`. -/
theorem ruleCandidate_now_lt (fuel : Nat) (r : IRRule) (now d : Int)
    (h : ruleCandidate fuel r now = .ok (some d)) : now < d := by
  unfold ruleCandidate at h
  rcases hty : r.type with _ | _ <;> rw [hty] at h <;> simp only at h
  · rcases hat : r.at_ with _ | dt <;> rw [hat] at h <;> simp only at h
    · exact PyResult.noConfusion h
    · split_ifs at h with hlt
      · rcases hex : _excluded dt r with b | e | _ <;> rw [hex] at h <;>
          simp only [PyResult.ok_bind, PyResult.exc_bind, PyResult.hang_bind] at h
        · rcases b with _ | _ <;> simp only [Bool.false_eq_true, if_false, if_true] at h
          · have := Option.some.inj (PyResult.ok.inj h)
            subst this
            exact hlt
          · exact Option.noConfusion (PyResult.ok.inj h)
        · exact PyResult.noConfusion h
        · exact PyResult.noConfusion h
      · exact Option.noConfusion (PyResult.ok.inj h)
  · rcases hbld : _build_rruleset r now (_window_datetimes r.window_date).1 with rs | e | _ <;>
        rw [hbld] at h <;>
        simp only [PyResult.ok_bind, PyResult.exc_bind, PyResult.hang_bind] at h
    · exact probeLoop_now_lt fuel rs r _ _ now 500 now d (le_refl now) h
    · exact PyResult.noConfusion h
    · exact PyResult.noConfusion h

/-- Every candidate the gathering loop collects is strictly after `now`. -/
theorem collectCandidates_now_lt (fuel : Nat) (now : Int) :
    ∀ (rules : List IRRule) (cs : List Int), collectCandidates fuel now rules = .ok cs →
      ∀ x ∈ cs, now < x := by
  intro rules
  induction rules with
  | nil =>
    intro cs h x hx
    rw [collectCandidates] at h
    have := PyResult.ok.inj h
    subst this
    exact absurd hx (List.not_mem_nil x)
  | cons r rest ih =>
    intro cs h x hx
    rw [collectCandidates] at h
    rcases hr : ruleCandidate fuel r now with o | e | _ <;> rw [hr] at h <;>
      simp only [PyResult.ok_bind, PyResult.exc_bind, PyResult.hang_bind] at h
    · rcases hc : collectCandidates fuel now rest with cs' | e | _ <;> rw [hc] at h <;>
        simp only [PyResult.ok_bind, PyResult.exc_bind, PyResult.hang_bind] at h
      · have := PyResult.ok.inj h
        subst this
        rcases o with _ | d
        · exact ih cs' hc x hx
        · simp only at hx
          rcases List.mem_cons.mp hx with hx | hx
          · subst hx
            exact ruleCandidate_now_lt fuel r now x hr
          · exact ih cs' hc x hx
      · exact PyResult.noConfusion h
      · exact PyResult.noConfusion h
    · exact PyResult.noConfusion h
    · exact PyResult.noConfusion h

/-- **C3.** For every rule text and reference instant, whenever
`next_occurrence` returns an instant instead of failing, that instant is
strictly greater than `now` — one-shots, recurring rules, weekend shifts,
window re-anchoring and exclusion retries included. -/
theorem c3_next_occurrence_strict (fuel : Nat) (text : String) (now d : Int) (tz : String)
    (h : next_occurrence fuel text now tz = .ok d) : now < d := by
  unfold next_occurrence at h
  rcases hp : parse_schedule text tz with _ | sched <;> rw [hp] at h
  · exact PyResult.noConfusion h
  · simp only [next_occurrence_sched] at h
    rcases hc : collectCandidates fuel now sched.rules with cs | e | _ <;> rw [hc] at h <;>
      simp only [PyResult.ok_bind, PyResult.exc_bind, PyResult.hang_bind] at h
    · rcases cs with _ | ⟨c, rest⟩
      · exact PyResult.noConfusion h
      · simp only at h
        have := PyResult.ok.inj h
        subst this
        exact collectCandidates_now_lt fuel now sched.rules _ hc _ (foldlMin_mem rest c)
    · exact PyResult.noConfusion h
    · exact PyResult.noConfusion h

/-- Witness for `c3_next_occurrence_strict` at a concrete text and
instant. -/
theorem c3_next_occurrence_strict_witness :
    next_occurrence 600 "every day at 10:00" now2026 "Europe/Paris" =
      .ok (mkDT 2026 3 13 10 0) ∧ now2026 < mkDT 2026 3 13 10 0 :=
  ⟨by decide,
    c3_next_occurrence_strict 600 "every day at 10:00" now2026 (mkDT 2026 3 13 10 0)
      "Europe/Paris" (by decide)⟩

/-! ### C10: the weekend shift changes only the date -/

/-- On a weekend day, the `while d.weekday() != 0` loop lands on the Monday
`7 - weekday` days ahead. -/
theorem nextMondayDay_weekend (z : Int) (h : 5 ≤ weekdayOfDay z) :
    nextMondayDay z = z + (7 - weekdayOfDay z) := by
  have hb : weekdayOfDay z < 7 := by unfold weekdayOfDay; omega
  simp only [nextMondayDay, advanceWhile, weekdayOfDay] at *
  split_ifs <;> simp only [decide_eq_true_eq] at * <;> omega

/-- On a weekend day, `next_business_day` also lands on the Monday
`7 - weekday` days ahead. -/
theorem next_business_day_weekend (z : Int) (h : 5 ≤ weekdayOfDay z) :
    next_business_day z = z + (7 - weekdayOfDay z) := by
  have hb : weekdayOfDay z < 7 := by unfold weekdayOfDay; omega
  simp only [next_business_day, advanceWhile, weekdayOfDay] at *
  split_ifs <;> simp only [decide_eq_true_eq] at * <;> omega

/-- Replacing the date keeps the seconds past midnight. -/
theorem dtSetDay_sec (dt z : Int) : dtSecOfDay (dtSetDay dt z) = dtSecOfDay dt := by
  simp only [dtSecOfDay, dtSetDay, dayStart]
  omega

/-- Replacing the date sets the day number. -/
theorem dtSetDay_day (dt z : Int) : dtDay (dtSetDay dt z) = z := by
  simp only [dtDay, dtSetDay, dayStart, dtSecOfDay]
  omega

/-- **C10.** `_apply_weekend_shift` changes only the date component: the
time of day (hence hour and minute) is preserved; the datetime is returned
unchanged when its date is no weekend day or the mode is `none`; otherwise
the date moves strictly forward by at most two days, landing on a Monday
for `next_monday` and on the first following non-weekend day for
`next_business_day`. -/
theorem c10_weekend_shift_frame (dt : Int) (mode : Shift) :
    dtSecOfDay (_apply_weekend_shift dt mode) = dtSecOfDay dt ∧
    ((is_weekend (dtDay dt) = false ∨ mode = Shift.none) →
      _apply_weekend_shift dt mode = dt) ∧
    (is_weekend (dtDay dt) = true → mode = Shift.nextMonday →
      dtDay dt < dtDay (_apply_weekend_shift dt mode) ∧
      dtDay (_apply_weekend_shift dt mode) ≤ dtDay dt + 2 ∧
      weekdayOfDay (dtDay (_apply_weekend_shift dt mode)) = 0) ∧
    (is_weekend (dtDay dt) = true → mode = Shift.nextBusinessDay →
      dtDay dt < dtDay (_apply_weekend_shift dt mode) ∧
      dtDay (_apply_weekend_shift dt mode) ≤ dtDay dt + 2 ∧
      is_weekend (dtDay (_apply_weekend_shift dt mode)) = false ∧
      ∀ z, dtDay dt < z → z < dtDay (_apply_weekend_shift dt mode) →
        is_weekend z = true) := by
  have hb : 0 ≤ weekdayOfDay (dtDay dt) ∧ weekdayOfDay (dtDay dt) < 7 := by
    unfold weekdayOfDay; omega
  rcases mode with _ | _ | _
  · refine ⟨rfl, fun _ => rfl, ?_, ?_⟩
    · intro _ hm
      cases hm
    · intro _ hm
      cases hm
  · by_cases hw : is_weekend (dtDay dt) = true
    · have h5 : 5 ≤ weekdayOfDay (dtDay dt) := by
        simpa [is_weekend, decide_eq_true_eq] using hw
      have hev := nextMondayDay_weekend (dtDay dt) h5
      have hres : _apply_weekend_shift dt Shift.nextMonday =
          dtSetDay dt (nextMondayDay (dtDay dt)) := by
        simp [_apply_weekend_shift, hw]
      refine ⟨?_, ?_, ?_, ?_⟩
      · rw [hres, dtSetDay_sec]
      · intro hcon
        rcases hcon with hcon | hcon
        · rw [hw] at hcon
          cases hcon
        · cases hcon
      · intro _ _
        rw [hres, dtSetDay_day, hev]
        refine ⟨by omega, by omega, ?_⟩
        simp only [weekdayOfDay] at *
        omega
      · intro _ hm
        cases hm
    · have hw' : is_weekend (dtDay dt) = false := by simpa using hw
      have hres : _apply_weekend_shift dt Shift.nextMonday = dt := by
        simp [_apply_weekend_shift, hw']
      refine ⟨by rw [hres], fun _ => hres, ?_, ?_⟩
      · intro hcon _
        rw [hw'] at hcon
        cases hcon
      · intro _ hm
        cases hm
  · by_cases hw : is_weekend (dtDay dt) = true
    · have h5 : 5 ≤ weekdayOfDay (dtDay dt) := by
        simpa [is_weekend, decide_eq_true_eq] using hw
      have hev := next_business_day_weekend (dtDay dt) h5
      have hres : _apply_weekend_shift dt Shift.nextBusinessDay =
          dtSetDay dt (next_business_day (dtDay dt)) := by
        simp [_apply_weekend_shift, hw]
      refine ⟨?_, ?_, ?_, ?_⟩
      · rw [hres, dtSetDay_sec]
      · intro hcon
        rcases hcon with hcon | hcon
        · rw [hw] at hcon
          cases hcon
        · cases hcon
      · intro _ hm
        cases hm
      · intro _ _
        rw [hres, dtSetDay_day, hev]
        refine ⟨by omega, by omega, ?_, ?_⟩
        · simp only [is_weekend, decide_eq_false_iff_not]
          simp only [weekdayOfDay] at *
          omega
        · intro z h1 h2
          simp only [is_weekend, decide_eq_true_eq]
          simp only [weekdayOfDay] at *
          omega
    · have hw' : is_weekend (dtDay dt) = false := by simpa using hw
      have hres : _apply_weekend_shift dt Shift.nextBusinessDay = dt := by
        simp [_apply_weekend_shift, hw']
      refine ⟨by rw [hres], fun _ => hres, ?_, ?_⟩
      · intro _ hm
        cases hm
      · intro hcon _
        rw [hw'] at hcon
        cases hcon

/-- Witness for `c10_weekend_shift_frame` on a Saturday (2026-08-01 09:00,
the spec's weekend-shift scenario day) with mode `next_monday`. -/
theorem c10_weekend_shift_frame_witness :
    is_weekend (dtDay (mkDT 2026 8 1 9 0)) = true ∧
    (dtDay (mkDT 2026 8 1 9 0) < dtDay (_apply_weekend_shift (mkDT 2026 8 1 9 0) Shift.nextMonday) ∧
      dtDay (_apply_weekend_shift (mkDT 2026 8 1 9 0) Shift.nextMonday) ≤ dtDay (mkDT 2026 8 1 9 0) + 2 ∧
      weekdayOfDay (dtDay (_apply_weekend_shift (mkDT 2026 8 1 9 0) Shift.nextMonday)) = 0) :=
  ⟨by decide, (c10_weekend_shift_frame (mkDT 2026 8 1 9 0) Shift.nextMonday).2.2.1 (by decide) rfl⟩

end Recpyx
